import Mathlib

/-!
Verification of `.rag/build_index.py` (markdown → RAG index builder).

Shallow embedding: Python strings are modelled as `List Char`, Python ints as
`Nat` (every integer value manipulated by the embedded code is provably
non-negative, and each subtraction below is shown never to truncate).
Character classes of the regexes (`\w`, `\s`) are modelled on the ASCII range,
which covers all inputs appearing in the claims.
-/

namespace BuildIndex

/-- Python `str` whitespace characters (ASCII range), as used by `str.strip()`
and the regex class `\s`. -/
def isSpaceChar (c : Char) : Bool :=
  c = ' ' || c = '\t' || c = '\n' || c = '\r' || c = '\x0b' || c = '\x0c'

/-- Python `str.strip()`: drop leading and trailing whitespace. -/
def pyStrip (l : List Char) : List Char :=
  ((l.dropWhile isSpaceChar).reverse.dropWhile isSpaceChar).reverse

/-- Python regex `\w` (word character), ASCII range: `[a-zA-Z0-9_]`. -/
def isWordChar (c : Char) : Bool :=
  c.isAlpha || c.isDigit || c = '_'

/-- Python `str.split("\n")`. -/
def pySplitNl (l : List Char) : List (List Char) :=
  l.splitOn '\n'

/-- Python `str.splitlines()` for `'\n'`-separated text: like `split("\n")`
but yielding `[]` on the empty string and no trailing empty line when the
text ends with a newline. -/
def splitLines (l : List Char) : List (List Char) :=
  if l.isEmpty then []
  else if l.getLast? = some '\n' then (l.splitOn '\n').dropLast
  else l.splitOn '\n'

/-- Python `"\n".join(...)`. -/
def joinLines : List (List Char) → List Char
  | [] => []
  | [l] => l
  | l :: rest => l ++ '\n' :: joinLines rest

/-- The backtick character (written via its code point to keep source plain). -/
def fenceChar : Char := Char.ofNat 96

/-- The three-backtick fence marker matched by `CODE_FENCE_RE = re.compile(r"^```")`. -/
def fenceMarker : List Char := [fenceChar, fenceChar, fenceChar]

/-- `CODE_FENCE_RE.match(ln.strip())`: the stripped line starts with three backticks. -/
def isFenceLine (ln : List Char) : Bool :=
  fenceMarker.isPrefixOf (pyStrip ln)

/-- The three-hyphen front-matter delimiter. -/
def hyphen3 : List Char := ['-', '-', '-']

/-- Python `list.index("---")` (wrapped in `try`/`except ValueError`): index
of the first element equal to `---`, or `none`. -/
def indexOfDelim : List (List Char) → Option Nat
  | [] => none
  | p :: rest => if p = hyphen3 then some 0 else (indexOfDelim rest).map (· + 1)

/-- `strip_front_matter` from the source: if the text starts with `---` and,
splitting on newlines, some later part equals `---`, drop everything through
that closing line; otherwise return the text unchanged. -/
def strip_front_matter (text : List Char) : List Char :=
  if hyphen3.isPrefixOf text then
    let parts := pySplitNl text
    if parts.length > 2 then
      match indexOfDelim (parts.drop 1) with
      | some i0 => joinLines (parts.drop (i0 + 2))
      | none => text
    else text
  else text

/-- One pass of `re.sub(p+, r, s)`-style run collapsing: each maximal run of
characters satisfying `p` is replaced by the single character `r`.  The
`inRun` flag records whether the previous character was part of a run. -/
def collapseRunsGo (p : Char → Bool) (r : Char) : List Char → Bool → List Char
  | [], _ => []
  | c :: rest, inRun =>
    if p c then
      if inRun then collapseRunsGo p r rest true
      else r :: collapseRunsGo p r rest true
    else c :: collapseRunsGo p r rest false

/-- Replace each maximal run of `p`-characters by the single character `r`
(the behaviour of `re.sub(r"X+", r, s)` for a character class `X`). -/
def collapseRuns (p : Char → Bool) (r : Char) (l : List Char) : List Char :=
  collapseRunsGo p r l false

/-- `slugify` from the source: strip, lowercase, remove characters that are
neither word characters nor whitespace nor hyphen, collapse whitespace runs
to single hyphens, collapse hyphen runs. -/
def slugify (title : List Char) : List Char :=
  let s := (pyStrip title).map Char.toLower
  let s := s.filter (fun c => isWordChar c || isSpaceChar c || c = '-')
  let s := collapseRuns isSpaceChar '-' s
  collapseRuns (fun c => c = '-') '-' s

/-- Modelled from the spec: the slugify pipeline exactly as the claim words it,
including the final "trim leading and trailing hyphens" step (which the
source does not perform); used only to compare against `slugify`. -/
def slugifySpecClaim (title : List Char) : List Char :=
  let s := (pyStrip title).map Char.toLower
  let s := s.filter (fun c => isWordChar c || isSpaceChar c || c = '-')
  let s := collapseRuns isSpaceChar '-' s
  let s := collapseRuns (fun c => c = '-') '-' s
  (s.dropWhile (fun c => c = '-')).reverse.dropWhile (fun c => c = '-') |>.reverse

/-- The body of the line loop of `split_paragraphs_preserving`, with its final
state made explicit: returns (paragraphs emitted so far, in_fence, buf).
A fence line toggles `in_fence` and is buffered; outside a fence a blank line
flushes a non-empty buffer; every other line is buffered. -/
def splitRun : List (List Char) → Bool → List (List Char) →
    List (List Char) × Bool × List (List Char)
  | [], inF, buf => ([], inF, buf)
  | ln :: rest, inF, buf =>
    if isFenceLine ln then splitRun rest (!inF) (buf ++ [ln])
    else if !inF && (pyStrip ln).isEmpty then
      if buf.isEmpty then splitRun rest inF buf
      else
        let r := splitRun rest inF []
        (pyStrip (joinLines buf) :: r.1, r.2)
    else splitRun rest inF (buf ++ [ln])

/-- The paragraph list of `split_paragraphs_preserving` before the final
empty-paragraph filter: the loop's output plus the trailing flush of `buf`. -/
def runParas (lines : List (List Char)) (inF : Bool) (buf : List (List Char)) :
    List (List Char) :=
  let r := splitRun lines inF buf
  r.1 ++ (if r.2.2 = [] then [] else [pyStrip (joinLines r.2.2)])

/-- `split_paragraphs_preserving` from the source: split on blank lines while
treating fenced code blocks as atomic, then drop empty paragraphs. -/
def split_paragraphs_preserving (text : List Char) : List (List Char) :=
  (runParas (splitLines text) false []).filter (fun p => !p.isEmpty)

/-- `HEADING_RE.match(ln)` followed by the `title.strip()` both call sites
perform: `^(#{1,6})\s+(.+?)\s*$` on the raw line.  Returns the heading level
and the stripped title when the line matches. -/
def headingOf (ln : List Char) : Option (Nat × List Char) :=
  let hs := ln.takeWhile (fun c => c = '#')
  let rest := ln.drop hs.length
  let wsThenMore : Bool := match rest with | c :: _ :: _ => isSpaceChar c | _ => false
  if 1 ≤ hs.length ∧ hs.length ≤ 6 ∧ wsThenMore then
    some (hs.length, pyStrip rest)
  else none

/-- Line loop of `parse_headings`: fence lines toggle the flag and are
skipped; lines inside a fence are skipped; other lines are matched against
the heading pattern. -/
def parseHeadingsGo : List (List Char) → Bool → List (Nat × List Char)
  | [], _ => []
  | ln :: rest, inF =>
    if isFenceLine ln then parseHeadingsGo rest (!inF)
    else if inF then parseHeadingsGo rest inF
    else
      match headingOf ln with
      | some h => h :: parseHeadingsGo rest inF
      | none => parseHeadingsGo rest inF

/-- `parse_headings` from the source: `(level, title)` pairs, heading
detection suppressed inside fenced code blocks. -/
def parse_headings (text : List Char) : List (Nat × List Char) :=
  parseHeadingsGo (splitLines text) false

/-- The heading-position loop of `chunk_markdown` (no fence tracking): every
line matching the heading pattern contributes `(pos, level, title)`, where
`pos` advances by `len(ln) + 1` per line. -/
def headingsPositionsGo : List (List Char) → Nat → List (Nat × Nat × List Char)
  | [], _ => []
  | ln :: rest, pos =>
    match headingOf ln with
    | some (lvl, title) => (pos, lvl, title) :: headingsPositionsGo rest (pos + ln.length + 1)
    | none => headingsPositionsGo rest (pos + ln.length + 1)

/-- The `headings_positions` list computed inside `chunk_markdown`. -/
def headings_positions (text : List Char) : List (Nat × Nat × List Char) :=
  headingsPositionsGo (splitLines text) 0

/-- Python `str.find(needle, start)`: smallest index `≥ start` where `needle`
occurs, else `-1` (represented as `none`). -/
def pyFind (hay needle : List Char) (start : Nat) : Option Nat :=
  (List.range (hay.length + 1)).find?
    (fun i => start ≤ i && needle.isPrefixOf (hay.drop i))

/-- The `par_positions` loop of `chunk_markdown`: locate each paragraph in the
stripped text starting from the running cursor; on `find` failure reuse the
cursor position; then advance the cursor past the paragraph. -/
def parPositionsGo : List (List Char) → List Char → Nat → List Nat
  | [], _, _ => []
  | p :: rest, stripped, pos =>
    let idx := match pyFind stripped p pos with
      | some i => i
      | none => pos
    idx :: parPositionsGo rest stripped (idx + p.length)

/-- Context-heading lookup used to build `frames`: the title of the last
heading whose position is `≤ idx`, or the empty string. -/
def contextOf (hps : List (Nat × Nat × List Char)) (idx : Nat) : List Char :=
  match (hps.filter (fun h => h.1 ≤ idx)).getLast? with
  | some h => h.2.2
  | none => []

/-- One emitted chunk.  The source's per-corpus metadata fields (`id`,
`path`, `title`), which no claim refers to, are omitted; `end` is a Lean
keyword and is rendered `endPos`. -/
structure Chunk where
  heading : List Char
  start : Nat
  endPos : Nat
  text : List Char
deriving Repr, DecidableEq

/-- The chunker's mutable accumulator state. -/
structure ChunkAcc where
  curText : List Char
  curHeading : List Char
  startChar : Nat
  accLen : Nat
  chunks : List Chunk
deriving Repr, DecidableEq

/-- The blank-line separator `"\n\n"` used when joining paragraphs. -/
def sep : List Char := ['\n', '\n']

/-- Python `cur_text[-overlap:]` for `0 < overlap < len` (the trailing
`overlap` characters). -/
def takeLast (n : Nat) (l : List Char) : List Char :=
  l.drop (l.length - n)

/-- `flush_chunk` from the source: append a chunk unless the stripped text is
empty (`heading or ""` is the identity on our `List Char` headings). -/
def flush_chunk (chunks : List Chunk) (textAcc heading : List Char)
    (start endP : Nat) : List Chunk :=
  if pyStrip textAcc = [] then chunks
  else chunks ++ [⟨heading, start, endP, pyStrip textAcc⟩]

/-- One iteration of the paragraph-rolling loop of `chunk_markdown`, over one
frame `(context title, paragraph)`.  The subtraction in the overlap branch
mirrors the source expression and never truncates (see
`chunkStep_overlap_start`). -/
def chunkStep (chunkSize overlap : Nat) (st : ChunkAcc)
    (fr : List Char × List Char) : ChunkAcc :=
  let paraText := pyStrip fr.2
  if paraText = [] then st
  else
    let st1 :=
      if st.curText = [] then
        { st with curHeading := fr.1, startChar := st.accLen }
      else st
    let st2 :=
      if st1.curText.length + 2 + paraText.length ≤ chunkSize then
        { st1 with
          curText :=
            if st1.curText = [] then paraText
            else st1.curText ++ sep ++ paraText }
      else
        let chunks' := flush_chunk st1.chunks st1.curText st1.curHeading
          st1.startChar (st1.startChar + st1.curText.length)
        if overlap > 0 ∧ st1.curText.length > overlap then
          let tl := takeLast overlap st1.curText
          let newText := tl ++ sep ++ paraText
          { st1 with
            chunks := chunks', curText := newText,
            startChar := st1.startChar + newText.length - tl.length - paraText.length - 2,
            curHeading := fr.1 }
        else
          { st1 with
            chunks := chunks', curText := paraText,
            startChar := st1.startChar + paraText.length,
            curHeading := fr.1 }
    { st2 with accLen := st2.accLen + paraText.length + 2 }

/-- The chunk list produced from a frame list: fold the rolling loop and
perform the final flush. -/
def chunksOfFrames (chunkSize overlap : Nat)
    (frames : List (List Char × List Char)) : List Chunk :=
  let fin := frames.foldl (chunkStep chunkSize overlap) ⟨[], [], 0, 0, []⟩
  flush_chunk fin.chunks fin.curText fin.curHeading fin.startChar
    (fin.startChar + fin.curText.length)

/-- `chunk_markdown` from the source (per-corpus metadata omitted): strip
front matter, split paragraphs, build the TOC via `parse_headings` (with
`slugify` anchors), compute heading and paragraph positions, assign context
headings, and roll paragraphs into chunks.  Returns (chunks, toc). -/
def chunk_markdown (text : List Char) (chunkSize overlap : Nat) :
    List Chunk × List (Nat × List Char × List Char) :=
  let stripped := strip_front_matter text
  let paras := split_paragraphs_preserving stripped
  let toc := (parse_headings stripped).map (fun h => (h.1, h.2, slugify h.2))
  let hps := headings_positions stripped
  let pps := parPositionsGo paras stripped 0
  let frames := (pps.zip paras).map (fun ip => (contextOf hps ip.1, ip.2))
  (chunksOfFrames chunkSize overlap frames, toc)

/-- A string is clean when it is non-empty and neither starts nor ends with
whitespace — exactly the shape of every emitted paragraph. -/
def Clean (p : List Char) : Prop :=
  p ≠ [] ∧ (∀ c, p.head? = some c → isSpaceChar c = false) ∧
    (∀ c, p.getLast? = some c → isSpaceChar c = false)

/-- A keyword artifact row `{id, keywords}`. -/
def KwRow : Type := List Char × List (List Char)

/-- A neighbor artifact row `{id, neighbors}`. -/
def NbRow : Type := List Char × List (List Char × ℚ)

/-- Outcome of one run of `main`, with file-system effects abstracted:
`exitCode`/`noticePrinted` model `sys.exit(0)` and the stderr diagnostic;
`artifacts = none` means the run ended before any output file was written,
`some (chunks, toc, keywords, neighbors)` means the four artifacts were
written with those records. -/
structure RunResult where
  exitCode : Nat
  noticePrinted : Bool
  artifacts : Option (List Chunk × List (Nat × List Char × List Char) ×
    List KwRow × List NbRow)

/-- `main` from the source, over the discovered documents (in sorted path
order) with the keyword and neighbor builders supplied as capability
parameters: if no markdown file was found, print the notice and exit with
status 0 before writing anything; otherwise chunk every document and write
the four artifacts. -/
def mainRun (files : List (List Char)) (chunkSize overlap : Nat)
    (kwCap : List Chunk → List KwRow) (nbCap : List Chunk → List NbRow) :
    RunResult :=
  if files.isEmpty then
    { exitCode := 0, noticePrinted := true, artifacts := none }
  else
    let results := files.map (fun txt => chunk_markdown txt chunkSize overlap)
    let allChunks := (results.map Prod.fst).flatten
    let fullToc := (results.map Prod.snd).flatten
    { exitCode := 0, noticePrinted := false,
      artifacts := some (allChunks, fullToc, kwCap allChunks, nbCap allChunks) }

/-- Invariant threaded through the rolling loop for start-offset
monotonicity: emitted starts are non-decreasing, all of them are bounded by
the current start cursor, and chunks can only exist once text accumulated. -/
def StartInv (st : ChunkAcc) : Prop :=
  List.Chain' (fun a b => a.start ≤ b.start) st.chunks ∧
  (∀ c ∈ st.chunks, c.start ≤ st.startChar) ∧
  (st.curText = [] → st.chunks = [])

/-- Loop invariant for the size bound: accumulator and all emitted chunk
texts stay within `chunk_size + overlap + 2` (the `+ 2` being the blank-line
separator glued between the overlap tail and the next paragraph). -/
def SizeInv (cs os : Nat) (st : ChunkAcc) : Prop :=
  st.curText.length ≤ cs + os + 2 ∧ ∀ c ∈ st.chunks, c.text.length ≤ cs + os + 2

/-- A clean string `q` is covered by the chunker state when it occurs
contiguously either in an already-emitted chunk or in the accumulator. -/
def CoveredBy (st : ChunkAcc) (q : List Char) : Prop :=
  (∃ c ∈ st.chunks, q <:+: c.text) ∨ q <:+: st.curText

/-- The frame list built inside `chunk_markdown`. -/
def framesOf (text : List Char) : List (List Char × List Char) :=
  let stripped := strip_front_matter text
  let paras := split_paragraphs_preserving stripped
  let hps := headings_positions stripped
  let pps := parPositionsGo paras stripped 0
  (pps.zip paras).map (fun ip => (contextOf hps ip.1, ip.2))

/-- The fence state (am I inside a fenced code block?) in effect when each
line is examined, under the fence-toggle rule shared by the splitter and
`parse_headings`. -/
def fenceStates : List (List Char) → Bool → List Bool
  | [], _ => []
  | ln :: rest, inF => inF :: fenceStates rest (if isFenceLine ln then !inF else inF)

/-- Number of fence-delimiter lines. -/
def countFences (lines : List (List Char)) : Nat :=
  (lines.filter (fun ln => isFenceLine ln)).length

/-- Modelled from the spec's definition of a fenced code block: the region
from an opening fence-delimiter line through the matching closing delimiter
line, taken modulo surrounding whitespace (its text is the stripped join of
those lines).  An unterminated trailing fence produces no block. -/
def fencedBlocksGo : List (List Char) → Bool → List (List Char) → List (List Char)
  | [], _, _ => []
  | ln :: rest, inF, cur =>
    if isFenceLine ln then
      if inF then pyStrip (joinLines (cur ++ [ln])) :: fencedBlocksGo rest false []
      else fencedBlocksGo rest true [ln]
    else if inF then fencedBlocksGo rest true (cur ++ [ln])
    else fencedBlocksGo rest false cur

/-- The fenced code blocks of a document. -/
def fencedBlocks (text : List Char) : List (List Char) :=
  fencedBlocksGo (splitLines text) false []

/-- Ascending-distance ranking relation for query `i`, ties by index. -/
def distLe (dist : Nat → Nat → Int) (i : Nat) (a b : Nat) : Prop :=
  dist i a < dist i b ∨ (dist i a = dist i b ∧ a ≤ b)

/-- Descending-similarity ranking relation for query `i`, ties by index. -/
def simGe (sim : Nat → Nat → Int) (i : Nat) (a b : Nat) : Prop :=
  sim i b < sim i a ∨ (sim i a = sim i b ∧ a ≤ b)

instance distLe_decidable (dist : Nat → Nat → Int) (i : Nat) :
    DecidableRel (distLe dist i) := fun a b => by
  unfold distLe
  infer_instance

instance simGe_decidable (sim : Nat → Nat → Int) (i : Nat) :
    DecidableRel (simGe sim i) := fun a b => by
  unfold simGe
  infer_instance

instance distLe_total (dist : Nat → Nat → Int) (i : Nat) :
    IsTotal Nat (distLe dist i) where
  total a b := by
    unfold distLe
    rcases lt_trichotomy (dist i a) (dist i b) with h | h | h
    · exact Or.inl (Or.inl h)
    · rcases Nat.le_total a b with hab | hab
      · exact Or.inl (Or.inr ⟨h, hab⟩)
      · exact Or.inr (Or.inr ⟨h.symm, hab⟩)
    · exact Or.inr (Or.inl h)

instance distLe_trans (dist : Nat → Nat → Int) (i : Nat) :
    IsTrans Nat (distLe dist i) where
  trans a b c hab hbc := by
    unfold distLe at *
    rcases hab with h1 | ⟨h1, h1'⟩ <;> rcases hbc with h2 | ⟨h2, h2'⟩
    · exact Or.inl (h1.trans h2)
    · exact Or.inl (h2 ▸ h1)
    · exact Or.inl (h1 ▸ h2)
    · exact Or.inr ⟨h1.trans h2, h1'.trans h2'⟩

instance simGe_total (sim : Nat → Nat → Int) (i : Nat) :
    IsTotal Nat (simGe sim i) where
  total a b := by
    unfold simGe
    rcases lt_trichotomy (sim i a) (sim i b) with h | h | h
    · exact Or.inr (Or.inl h)
    · rcases Nat.le_total a b with hab | hab
      · exact Or.inl (Or.inr ⟨h, hab⟩)
      · exact Or.inr (Or.inr ⟨h.symm, hab⟩)
    · exact Or.inl (Or.inl h)

instance simGe_trans (sim : Nat → Nat → Int) (i : Nat) :
    IsTrans Nat (simGe sim i) where
  trans a b c hab hbc := by
    unfold simGe at *
    rcases hab with h1 | ⟨h1, h1'⟩ <;> rcases hbc with h2 | ⟨h2, h2'⟩
    · exact Or.inl (h2.trans h1)
    · exact Or.inl (h2 ▸ h1)
    · exact Or.inl (h1 ▸ h2)
    · exact Or.inr ⟨h1.trans h2, h1'.trans h2'⟩

/-- Modelled from the spec: the exact nearest-neighbor capability ranks all
corpus indices for query `i` by ascending distance, ties broken by index. -/
def rankedByDist (dist : Nat → Nat → Int) (n i : Nat) : List Nat :=
  List.insertionSort (distLe dist i) (List.range n)

/-- Modelled from the spec: the dense exact-search capability ranks all
corpus indices for query `i` by descending inner-product similarity, ties
broken by index. -/
def rankedBySim (sim : Nat → Nat → Int) (n i : Nat) : List Nat :=
  List.insertionSort (simGe sim i) (List.range n)

/-- Modelled from the spec: `NearestNeighbors(n_neighbors=numNb).kneighbors`
row for query `i`: the `numNb` nearest indices (ascending distance), paired
with their distances. -/
def kneighborsRow (dist : Nat → Nat → Int) (n numNb i : Nat) : List (Nat × Int) :=
  ((rankedByDist dist n i).take numNb).map (fun j => (j, dist i j))

/-- Modelled from the spec: FAISS `IndexFlatIP.search(vectors, numNb)` row
for query `i`: top `numNb` indices by similarity, descending, padded with
id `-1` when the corpus has fewer than `numNb` vectors. -/
def faissSearchRow (sim : Nat → Nat → Int) (n numNb i : Nat) : List (Int × Int) :=
  let top := ((rankedBySim sim n i).take numNb).map (fun j => (Int.ofNat j, sim i j))
  top ++ List.replicate (numNb - top.length) ((-1 : Int), 0)

/-- The neighbor-collection loop of the TF-IDF fallback branch of
`build_neighbors`: skip the query itself, turn distance into similarity
`1 - dist`, and break once `len(neigh) >= k` — checked after the append,
exactly as in the source. -/
def sparsePickGo (i k : Nat) : List (Nat × Int) → Nat → List (Nat × Int)
  | [], _ => []
  | (j, d) :: rest, cnt =>
    if j = i then sparsePickGo i k rest cnt
    else if cnt + 1 ≥ k then [(j, 1 - d)]
    else (j, 1 - d) :: sparsePickGo i k rest (cnt + 1)

/-- The neighbor-collection loop of the FAISS branch of `build_neighbors`:
skip the query itself and the `-1` padding, keep scores as returned, and
break once `len(neigh) >= k` — checked after the append, as in the source. -/
def densePickGo (i : Int) (k : Nat) : List (Int × Int) → Nat → List (Int × Int)
  | [], _ => []
  | (j, s) :: rest, cnt =>
    if j = i ∨ j < 0 then densePickGo i k rest cnt
    else if cnt + 1 ≥ k then [(j, s)]
    else (j, s) :: densePickGo i k rest (cnt + 1)

/-- The sparse fallback path of `build_neighbors` (lines 297-314 of the
source) over the corpus ids, with the TF-IDF cosine distance supplied by the
modelled capability: `n_neighbors = min(k + 1, n)` candidates per row, self
skipped, `score = 1 - dist`. -/
def build_neighbors_sparse (ids : List (List Char)) (dist : Nat → Nat → Int)
    (k : Nat) : List (List Char × List (List Char × Int)) :=
  let n := ids.length
  (List.range n).map (fun i =>
    (ids.getD i [],
      (sparsePickGo i k (kneighborsRow dist n (min (k + 1) n) i) 0).map
        (fun p => (ids.getD p.1 [], p.2))))

/-- The dense FAISS path of `build_neighbors` (lines 258-295 of the source)
over the corpus ids, with inner-product similarity supplied by the modelled
embedding capability: `search(vectors, k + 1)` per row, self and negative
padding skipped. -/
def build_neighbors_dense (ids : List (List Char)) (sim : Nat → Nat → Int)
    (k : Nat) : List (List Char × List (List Char × Int)) :=
  let n := ids.length
  (List.range n).map (fun i =>
    (ids.getD i [],
      (densePickGo (i : Int) k (faissSearchRow sim n (k + 1) i) 0).map
        (fun p => (ids.getD p.1.toNat [], p.2))))

/-- A neighbor row as the claim describes it: at most `k` entries, never the
chunk's own id, scores in non-increasing order, and — when the corpus has
fewer than `k + 1` chunks — exactly the ids of all other chunks. -/
def NeighborRowOK (ids : List (List Char)) (k i : Nat)
    (row : List (List Char × Int)) : Prop :=
  row.length ≤ k ∧
  (∀ q ∈ row, q.1 ≠ ids.getD i []) ∧
  List.Chain' (fun a b => b.2 ≤ a.2) row ∧
  (ids.length ≤ k →
    (row.map Prod.fst).Perm
      (((List.range ids.length).filter (fun j => j ≠ i)).map (fun j => ids.getD j [])))

theorem dropWhile_head_false {p : Char → Bool} {l q : List Char} {c : Char}
    (h : l.dropWhile p = c :: q) : p c = false := by
  induction l with
  | nil => simp [List.dropWhile] at h
  | cons x xs ih =>
    by_cases hx : p x
    · rw [List.dropWhile_cons_of_pos hx] at h; exact ih h
    · rw [List.dropWhile_cons_of_neg hx] at h
      cases h; simpa using hx

theorem pyStrip_prefix_dropWhile (l : List Char) :
    pyStrip l <+: l.dropWhile isSpaceChar := by
  have h : ((l.dropWhile isSpaceChar).reverse.dropWhile isSpaceChar) <:+
      (l.dropWhile isSpaceChar).reverse := List.dropWhile_suffix _
  have h2 := List.reverse_prefix.mpr h
  simpa [pyStrip] using h2

theorem pyStrip_infix_self (l : List Char) : pyStrip l <:+: l :=
  ((pyStrip_prefix_dropWhile l).isInfix).trans (List.dropWhile_suffix isSpaceChar).isInfix

theorem pyStrip_length_le (l : List Char) : (pyStrip l).length ≤ l.length :=
  (pyStrip_infix_self l).sublist.length_le

theorem clean_pyStrip {l : List Char} (h : pyStrip l ≠ []) : Clean (pyStrip l) := by
  refine ⟨h, ?_, ?_⟩
  · intro c hc
    obtain ⟨q, hq⟩ : ∃ q, pyStrip l = c :: q := by
      cases hl : pyStrip l with
      | nil => rw [hl] at hc; simp at hc
      | cons a b =>
        rw [hl] at hc
        simp only [List.head?_cons, Option.some.injEq] at hc
        exact ⟨b, by rw [← hc]⟩
    obtain ⟨t, ht⟩ := pyStrip_prefix_dropWhile l
    have : l.dropWhile isSpaceChar = c :: (q ++ t) := by
      rw [← ht, hq]; simp
    exact dropWhile_head_false this
  · intro c hc
    have heq : (pyStrip l).getLast? =
        ((l.dropWhile isSpaceChar).reverse.dropWhile isSpaceChar).head? := by
      unfold pyStrip
      rw [List.getLast?_reverse]
    rw [heq] at hc
    cases hX : (l.dropWhile isSpaceChar).reverse.dropWhile isSpaceChar with
    | nil => rw [hX] at hc; simp at hc
    | cons a b =>
      rw [hX] at hc
      simp only [List.head?_cons, Option.some.injEq] at hc
      subst hc
      exact dropWhile_head_false hX

theorem dropWhile_eq_self_of_head {p : Char → Bool} {l : List Char}
    (h : ∀ c, l.head? = some c → p c = false) : l.dropWhile p = l := by
  cases l with
  | nil => rfl
  | cons x xs =>
    have hx : p x = false := h x rfl
    rw [List.dropWhile_cons, if_neg (by simp [hx])]

theorem pyStrip_eq_self_of_clean {p : List Char} (h : Clean p) : pyStrip p = p := by
  obtain ⟨hne, hh, hl⟩ := h
  unfold pyStrip
  rw [dropWhile_eq_self_of_head hh]
  rw [dropWhile_eq_self_of_head (by
    intro c hc
    rw [List.head?_reverse] at hc
    exact hl c hc)]
  simp

theorem pyStrip_idem (l : List Char) : pyStrip (pyStrip l) = pyStrip l := by
  by_cases h : pyStrip l = []
  · rw [h]; rfl
  · exact pyStrip_eq_self_of_clean (clean_pyStrip h)

theorem infix_dropWhile_of_clean {p s : List Char} (hc : Clean p)
    (h : p <:+: s) : p <:+: s.dropWhile isSpaceChar := by
  obtain ⟨t, u, rfl⟩ := h
  induction t with
  | nil =>
    obtain ⟨hp, hh, _⟩ := hc
    obtain ⟨c, q, rfl⟩ := List.exists_cons_of_ne_nil hp
    have hcf : isSpaceChar c = false := hh c rfl
    simp only [List.nil_append, List.cons_append]
    rw [List.dropWhile_cons, if_neg (by simp [hcf])]
    exact ⟨[], u, by simp⟩
  | cons x xs ih =>
    simp only [List.cons_append]
    rw [List.dropWhile_cons]
    by_cases hx : isSpaceChar x
    · rw [if_pos (by simp [hx])]
      exact ih
    · rw [if_neg (by simp [hx])]
      exact ⟨x :: xs, u, by simp⟩

theorem clean_reverse {p : List Char} (h : Clean p) : Clean p.reverse := by
  obtain ⟨hne, hh, hl⟩ := h
  refine ⟨by simpa using hne, ?_, ?_⟩
  · intro c hc
    rw [List.head?_reverse] at hc
    exact hl c hc
  · intro c hc
    rw [List.getLast?_reverse] at hc
    exact hh c hc

theorem infix_pyStrip_of_clean {p s : List Char} (hc : Clean p)
    (h : p <:+: s) : p <:+: pyStrip s := by
  have h1 : p <:+: s.dropWhile isSpaceChar := infix_dropWhile_of_clean hc h
  have h2 : p.reverse <:+: (s.dropWhile isSpaceChar).reverse :=
    List.reverse_infix.mpr h1
  have h3 : p.reverse <:+: ((s.dropWhile isSpaceChar).reverse).dropWhile isSpaceChar :=
    infix_dropWhile_of_clean (clean_reverse hc) h2
  have h4 := List.reverse_infix.mpr h3
  simpa [pyStrip] using h4

theorem pyStrip_eq_nil_all_space {s : List Char} (h : pyStrip s = []) :
    ∀ c ∈ s, isSpaceChar c = true := by
  intro c hcs
  by_contra hcf
  have hb : isSpaceChar c = false := by simpa using hcf
  have h1 : [c] <:+: s := by
    obtain ⟨t, u, rfl⟩ := List.append_of_mem hcs
    exact ⟨t, u, by simp⟩
  have h2 : [c] <:+: pyStrip s :=
    infix_pyStrip_of_clean ⟨by simp, by intro d hd; cases hd; exact hb,
      by intro d hd; simp at hd; subst hd; exact hb⟩ h1
  rw [h] at h2
  have := h2.sublist.length_le
  simp at this

theorem joinLines_cons (l : List Char) (rest : List (List Char)) (h : rest ≠ []) :
    joinLines (l :: rest) = l ++ '\n' :: joinLines rest := by
  cases rest with
  | nil => exact absurd rfl h
  | cons a b => rfl

theorem suffix_joinLines {l1 l2 : List (List Char)} (h : l1 <:+ l2) :
    joinLines l1 <:+ joinLines l2 := by
  obtain ⟨t, rfl⟩ := h
  induction t with
  | nil => simp
  | cons x xs ih =>
    cases hx : xs ++ l1 with
    | nil =>
      obtain ⟨-, hl1⟩ := List.append_eq_nil.mp hx
      rw [hl1]
      exact List.nil_suffix
    | cons a b =>
      have hjoin : joinLines ((x :: xs) ++ l1) = x ++ '\n' :: joinLines (xs ++ l1) := by
        rw [List.cons_append, joinLines_cons _ _ (by rw [hx]; exact List.cons_ne_nil a b)]
      rw [hjoin]
      refine ih.trans ?_
      rw [show x ++ '\n' :: joinLines (xs ++ l1) =
        (x ++ ['\n']) ++ joinLines (xs ++ l1) by simp]
      exact List.suffix_append _ _

/-- C8 counterexample: the claim says the pipeline ends by trimming leading
and trailing hyphens; on the input `"-a"` the trimming pipeline yields `"a"`
while the source's `slugify` keeps the leading hyphen and yields `"-a"`, so
the claim's description of `slugify` is false at this input. -/
theorem C8_counterexample :
    slugify "-a".toList = "-a".toList ∧
    slugifySpecClaim "-a".toList = "a".toList ∧
    slugify "-a".toList ≠ slugifySpecClaim "-a".toList := by
  refine ⟨by decide, by decide, by decide⟩

/-- C8 (amended): slugify is pure and performs lowercase, strip of
non-word/non-space/non-hyphen characters, whitespace-run collapse to single
hyphens and hyphen-run collapse, but does NOT trim leading or trailing
hyphens; the two spec examples hold, and hyphens at either end survive. -/
theorem C8_slugify_behaviour :
    slugify "Hello, World!".toList = "hello-world".toList ∧
    slugify "  Multiple   Spaces  ".toList = "multiple-spaces".toList ∧
    slugify "-a".toList = "-a".toList ∧
    slugify " x -".toList = "x-".toList := by
  refine ⟨by decide, by decide, by decide, by decide⟩

theorem indexOfDelim_eq_some_mem {l : List (List Char)} {i : Nat}
    (h : indexOfDelim l = some i) : hyphen3 ∈ l := by
  induction l generalizing i with
  | nil => simp [indexOfDelim] at h
  | cons p rest ih =>
    by_cases hp : p = hyphen3
    · rw [hp]; exact List.mem_cons_self _ _
    · rw [indexOfDelim, if_neg hp] at h
      cases hrec : indexOfDelim rest with
      | none => rw [hrec] at h; simp at h
      | some j => exact List.mem_cons_of_mem _ (ih hrec)

/-- C9 counterexample: on `"---x\nfoo\n---\nbody"` the first line is `---x`,
not the `---` delimiter line, yet `strip_front_matter` still strips through
the closing delimiter — so stripping is not restricted to well-formed front
matter with a delimiter line at the very start. -/
theorem C9_counterexample :
    strip_front_matter "---x\nfoo\n---\nbody".toList = "body".toList ∧
    strip_front_matter "---x\nfoo\n---\nbody".toList ≠ "---x\nfoo\n---\nbody".toList ∧
    (pySplitNl "---x\nfoo\n---\nbody".toList).head? = some "---x".toList ∧
    "---x".toList ≠ hyphen3 := by
  refine ⟨by decide, by decide, by decide, by decide⟩

/-- C9 (amended): `strip_front_matter` changes the text only when the text
begins with the three characters `---` (the first line need not be exactly
the delimiter) and some later newline-separated part is exactly `---`.
These conditions are necessary, not sufficient: the source also requires
more than two newline-separated parts, so e.g. the two-part text `---x\n---`
meets both conditions yet is returned unchanged.  In particular, a text
whose leading delimiter has no matching closing delimiter line is returned
completely unchanged. -/
theorem C9_strip_front_matter_only_when (t : List Char)
    (h : strip_front_matter t ≠ t) :
    hyphen3.isPrefixOf t = true ∧ hyphen3 ∈ (pySplitNl t).drop 1 := by
  by_cases hpfx : hyphen3.isPrefixOf t
  · refine ⟨hpfx, ?_⟩
    rw [strip_front_matter] at h
    rw [if_pos hpfx] at h
    by_cases hlen : (pySplitNl t).length > 2
    · rw [if_pos hlen] at h
      cases hidx : indexOfDelim ((pySplitNl t).drop 1) with
      | none => rw [hidx] at h; exact absurd rfl h
      | some i => exact indexOfDelim_eq_some_mem hidx
    · rw [if_neg hlen] at h; exact absurd rfl h
  · rw [strip_front_matter, if_neg hpfx] at h
    exact absurd rfl h

/-- C9 witness: a concrete text that is actually stripped, satisfying the
characterization. -/
theorem C9_witness :
    strip_front_matter "---\na\n---\nb".toList ≠ "---\na\n---\nb".toList ∧
    (hyphen3.isPrefixOf "---\na\n---\nb".toList = true ∧
      hyphen3 ∈ (pySplitNl "---\na\n---\nb".toList).drop 1) :=
  ⟨by decide, C9_strip_front_matter_only_when _ (by decide)⟩

/-- C4 counterexample: with no matching markdown files the run exits with
status 0 after the diagnostic notice but writes NO artifacts at all (it
exits before the writing stage), whereas the claim says all four artifacts
are present and empty. -/
theorem C4_counterexample :
    (mainRun [] 1000 120 (fun _ => []) (fun _ => [])).exitCode = 0 ∧
    (mainRun [] 1000 120 (fun _ => []) (fun _ => [])).noticePrinted = true ∧
    (mainRun [] 1000 120 (fun _ => []) (fun _ => [])).artifacts = none ∧
    (none : Option (List Chunk × List (Nat × List Char × List Char) ×
      List KwRow × List NbRow)) ≠ some ([], [], [], []) := by
  refine ⟨rfl, rfl, rfl, by simp⟩

/-- C4 (amended): when the input directory contains no matching markdown
files, the run terminates with exit status success and a diagnostic notice,
and none of the four output artifacts is written (the run exits before the
writing stage; only the output directory itself is created). -/
theorem C4_empty_input (chunkSize overlap : Nat)
    (kwCap : List Chunk → List KwRow) (nbCap : List Chunk → List NbRow) :
    mainRun [] chunkSize overlap kwCap nbCap =
      { exitCode := 0, noticePrinted := true, artifacts := none } := rfl

theorem takeLast_length {n : Nat} {l : List Char} (h : n ≤ l.length) :
    (takeLast n l).length = n := by
  simp [takeLast]
  omega

theorem chunkStep_empty (cs os : Nat) (st : ChunkAcc) (fr : List Char × List Char)
    (h : pyStrip fr.2 = []) : chunkStep cs os st fr = st := by
  simp [chunkStep, h]

theorem chunkStep_fits (cs os : Nat) (st : ChunkAcc) (fr : List Char × List Char)
    (hp : pyStrip fr.2 ≠ []) (hcur : st.curText ≠ [])
    (hfit : st.curText.length + 2 + (pyStrip fr.2).length ≤ cs) :
    chunkStep cs os st fr =
      { st with curText := st.curText ++ sep ++ pyStrip fr.2,
                accLen := st.accLen + (pyStrip fr.2).length + 2 } := by
  simp [chunkStep, hp, hcur, hfit, List.isEmpty_iff]

theorem chunkStep_fits_emptycur (cs os : Nat) (st : ChunkAcc) (fr : List Char × List Char)
    (hp : pyStrip fr.2 ≠ []) (hcur : st.curText = [])
    (hfit : 2 + (pyStrip fr.2).length ≤ cs) :
    chunkStep cs os st fr =
      { st with curText := pyStrip fr.2, curHeading := fr.1, startChar := st.accLen,
                accLen := st.accLen + (pyStrip fr.2).length + 2 } := by
  simp [chunkStep, hp, hcur, List.isEmpty_iff, hfit]

theorem pyStrip_nil : pyStrip [] = [] := rfl

theorem chunkStep_flush_emptycur (cs os : Nat) (st : ChunkAcc) (fr : List Char × List Char)
    (hp : pyStrip fr.2 ≠ []) (hcur : st.curText = [])
    (hfit : ¬(2 + (pyStrip fr.2).length ≤ cs)) :
    chunkStep cs os st fr =
      { st with curText := pyStrip fr.2, curHeading := fr.1,
                startChar := st.accLen + (pyStrip fr.2).length,
                accLen := st.accLen + (pyStrip fr.2).length + 2 } := by
  simp only [chunkStep]
  rw [if_neg hp, if_pos hcur]
  have hfit' : ¬(({ st with curHeading := fr.1, startChar := st.accLen } :
      ChunkAcc).curText.length + 2 + (pyStrip fr.2).length ≤ cs) := by
    simpa [hcur] using hfit
  rw [if_neg hfit']
  have hnoov : ¬(os > 0 ∧ ({ st with curHeading := fr.1, startChar := st.accLen } :
      ChunkAcc).curText.length > os) := by
    simp [hcur]
  rw [if_neg hnoov]
  simp [flush_chunk, hcur, pyStrip_nil]

theorem chunkStep_flush_overlap (cs os : Nat) (st : ChunkAcc) (fr : List Char × List Char)
    (hp : pyStrip fr.2 ≠ []) (hcur : st.curText ≠ [])
    (hfit : ¬(st.curText.length + 2 + (pyStrip fr.2).length ≤ cs))
    (hos : 0 < os) (hlen : os < st.curText.length) :
    chunkStep cs os st fr =
      { st with
        chunks := flush_chunk st.chunks st.curText st.curHeading st.startChar
          (st.startChar + st.curText.length),
        curText := takeLast os st.curText ++ sep ++ pyStrip fr.2,
        startChar := st.startChar,
        curHeading := fr.1,
        accLen := st.accLen + (pyStrip fr.2).length + 2 } := by
  have htl : (takeLast os st.curText).length = os := takeLast_length (Nat.le_of_lt hlen)
  simp only [chunkStep]
  rw [if_neg hp, if_neg hcur, if_neg hfit, if_pos (show os > 0 ∧ st.curText.length > os from
    And.intro hos hlen)]
  have hsep : sep.length = 2 := rfl
  simp
  omega

theorem chunkStep_flush_plain (cs os : Nat) (st : ChunkAcc) (fr : List Char × List Char)
    (hp : pyStrip fr.2 ≠ []) (hcur : st.curText ≠ [])
    (hfit : ¬(st.curText.length + 2 + (pyStrip fr.2).length ≤ cs))
    (hnoov : ¬(os > 0 ∧ st.curText.length > os)) :
    chunkStep cs os st fr =
      { st with
        chunks := flush_chunk st.chunks st.curText st.curHeading st.startChar
          (st.startChar + st.curText.length),
        curText := pyStrip fr.2,
        startChar := st.startChar + (pyStrip fr.2).length,
        curHeading := fr.1,
        accLen := st.accLen + (pyStrip fr.2).length + 2 } := by
  simp only [chunkStep]
  rw [if_neg hp, if_neg hcur, if_neg hfit,
    if_neg (show ¬(os > 0 ∧ st.curText.length > os) from hnoov)]

theorem flush_chunk_chain {chunks : List Chunk} {textAcc heading : List Char}
    {start endP : Nat}
    (h1 : List.Chain' (fun a b => a.start ≤ b.start) chunks)
    (h2 : ∀ c ∈ chunks, c.start ≤ start) :
    List.Chain' (fun a b => a.start ≤ b.start)
      (flush_chunk chunks textAcc heading start endP) ∧
    ∀ c ∈ flush_chunk chunks textAcc heading start endP, c.start ≤ start := by
  unfold flush_chunk
  split
  · exact ⟨h1, h2⟩
  · constructor
    · rw [List.chain'_append]
      refine ⟨h1, List.chain'_singleton _, ?_⟩
      intro x hx y hy
      simp at hy
      rw [← hy]
      exact h2 x (List.mem_of_mem_getLast? hx)
    · intro c hc
      rcases List.mem_append.mp hc with h | h
      · exact h2 c h
      · simp at h
        rw [h]

theorem chunkStep_StartInv (cs os : Nat) (st : ChunkAcc) (fr : List Char × List Char)
    (h : StartInv st) : StartInv (chunkStep cs os st fr) := by
  obtain ⟨h1, h2, h3⟩ := h
  by_cases hp : pyStrip fr.2 = []
  · rw [chunkStep_empty cs os st fr hp]; exact ⟨h1, h2, h3⟩
  · by_cases hcur : st.curText = []
    · have hch : st.chunks = [] := h3 hcur
      by_cases hfit : 2 + (pyStrip fr.2).length ≤ cs
      · rw [chunkStep_fits_emptycur cs os st fr hp hcur hfit]
        refine ⟨by simp [hch], by simp [hch], by intro hc; simp_all⟩
      · rw [chunkStep_flush_emptycur cs os st fr hp hcur hfit]
        refine ⟨by simp [hch], by simp [hch], by intro hc; simp_all⟩
    · by_cases hfit : st.curText.length + 2 + (pyStrip fr.2).length ≤ cs
      · rw [chunkStep_fits cs os st fr hp hcur hfit]
        refine ⟨h1, h2, ?_⟩
        intro hc
        simp at hc
        exact absurd hc.1 hcur
      · by_cases hov : os > 0 ∧ st.curText.length > os
        · rw [chunkStep_flush_overlap cs os st fr hp hcur hfit hov.1 hov.2]
          obtain ⟨g1, g2⟩ := @flush_chunk_chain st.chunks st.curText st.curHeading
            st.startChar (st.startChar + st.curText.length) h1 h2
          refine ⟨g1, g2, ?_⟩
          intro hc
          simp [sep] at hc
        · rw [chunkStep_flush_plain cs os st fr hp hcur hfit hov]
          obtain ⟨g1, g2⟩ := @flush_chunk_chain st.chunks st.curText st.curHeading
            st.startChar (st.startChar + st.curText.length) h1 h2
          refine ⟨g1, ?_, ?_⟩
          · intro c hc
            exact Nat.le_trans (g2 c hc) (Nat.le_add_right _ _)
          · intro hc
            exact absurd hc hp

theorem foldl_StartInv (cs os : Nat) (frames : List (List Char × List Char))
    (st : ChunkAcc) (h : StartInv st) :
    StartInv (frames.foldl (chunkStep cs os) st) := by
  induction frames generalizing st with
  | nil => exact h
  | cons fr rest ih => exact ih _ (chunkStep_StartInv cs os st fr h)

theorem chunksOfFrames_chain (cs os : Nat) (frames : List (List Char × List Char)) :
    List.Chain' (fun a b => a.start ≤ b.start) (chunksOfFrames cs os frames) := by
  have hinv : StartInv (⟨[], [], 0, 0, []⟩ : ChunkAcc) :=
    ⟨List.chain'_nil, by simp, by simp⟩
  have h := foldl_StartInv cs os frames ⟨[], [], 0, 0, []⟩ hinv
  unfold chunksOfFrames
  exact (flush_chunk_chain h.1 h.2.1).1

/-- C6: for every document and configuration, the chunks emitted by
`chunk_markdown` appear in monotonically non-decreasing `start` order:
consecutive chunks satisfy `earlier.start ≤ later.start`. -/
theorem C6_chunk_starts_monotone (text : List Char) (chunkSize overlap : Nat) :
    List.Chain' (fun a b => a.start ≤ b.start)
      ((chunk_markdown text chunkSize overlap).1) := by
  simp only [chunk_markdown]
  exact chunksOfFrames_chain _ _ _

/-- C1 counterexample: with `chunk_size = 10`, `overlap = 4` on
`"aaaaaaa\n\nbbbbbbbb"`, the first chunk is flushed with text length `7 >
overlap` and `end = 7`, and the successor chunk's start is `0` — equal to the
flushed chunk's start, not to `end - overlap = 3` as the claim requires. -/
theorem C1_counterexample :
    ((chunk_markdown "aaaaaaa\n\nbbbbbbbb".toList 10 4).1.map
      (fun c => (c.start, c.endPos, c.text.length))) = [(0, 7, 7), (0, 14, 14)] ∧
    (0 : Nat) ≠ 7 - 4 := ⟨by decide, by decide⟩

/-- C1 (amended): when a chunk is flushed with `overlap > 0` and the flushed
text longer than `overlap`, the new accumulator is indeed seeded with the
trailing `overlap` characters of the flushed text joined to the next
paragraph by the blank-line separator, but the start-offset recomputation
cancels exactly: the successor accumulator's start equals the flushed
chunk's start (not its end minus the overlap). -/
theorem C1_overlap_seed_start (cs os : Nat) (st : ChunkAcc)
    (fr : List Char × List Char)
    (hp : pyStrip fr.2 ≠ []) (hcur : st.curText ≠ [])
    (hfit : ¬(st.curText.length + 2 + (pyStrip fr.2).length ≤ cs))
    (hos : 0 < os) (hlen : os < st.curText.length) :
    (chunkStep cs os st fr).startChar = st.startChar ∧
    (chunkStep cs os st fr).curText = takeLast os st.curText ++ sep ++ pyStrip fr.2 ∧
    (chunkStep cs os st fr).chunks =
      flush_chunk st.chunks st.curText st.curHeading st.startChar
        (st.startChar + st.curText.length) := by
  rw [chunkStep_flush_overlap cs os st fr hp hcur hfit hos hlen]
  exact ⟨rfl, rfl, rfl⟩

/-- C1 witness: the amended step equation at a concrete state. -/
theorem C1_overlap_seed_start_witness :
    (pyStrip "bbbbbbbb".toList ≠ [] ∧ ("aaaaaaa".toList : List Char) ≠ [] ∧
      ¬("aaaaaaa".toList.length + 2 + (pyStrip "bbbbbbbb".toList).length ≤ 10) ∧
      0 < 4 ∧ 4 < "aaaaaaa".toList.length) ∧
    ((chunkStep 10 4 ⟨"aaaaaaa".toList, [], 0, 9, []⟩ ([], "bbbbbbbb".toList)).startChar = 0 ∧
      (chunkStep 10 4 ⟨"aaaaaaa".toList, [], 0, 9, []⟩ ([], "bbbbbbbb".toList)).curText =
        takeLast 4 "aaaaaaa".toList ++ sep ++ pyStrip "bbbbbbbb".toList ∧
      (chunkStep 10 4 ⟨"aaaaaaa".toList, [], 0, 9, []⟩ ([], "bbbbbbbb".toList)).chunks =
        flush_chunk [] "aaaaaaa".toList [] 0 (0 + "aaaaaaa".toList.length)) :=
  ⟨⟨by decide, by decide, by decide, by decide, by decide⟩,
    C1_overlap_seed_start 10 4 ⟨"aaaaaaa".toList, [], 0, 9, []⟩ ([], "bbbbbbbb".toList)
      (by decide) (by decide) (by decide) (by decide) (by decide)⟩

theorem flush_chunk_size {chunks : List Chunk} {textAcc heading : List Char}
    {start endP bound : Nat}
    (h1 : ∀ c ∈ chunks, c.text.length ≤ bound) (h2 : textAcc.length ≤ bound) :
    ∀ c ∈ flush_chunk chunks textAcc heading start endP, c.text.length ≤ bound := by
  unfold flush_chunk
  split
  · exact h1
  · intro c hc
    rcases List.mem_append.mp hc with h | h
    · exact h1 c h
    · simp at h
      rw [h]
      exact Nat.le_trans (pyStrip_length_le textAcc) h2

theorem chunkStep_SizeInv (cs os : Nat) (st : ChunkAcc) (fr : List Char × List Char)
    (hfr : (pyStrip fr.2).length ≤ cs) (h : SizeInv cs os st) :
    SizeInv cs os (chunkStep cs os st fr) := by
  obtain ⟨h1, h2⟩ := h
  have hple : (pyStrip fr.2).length ≤ cs + os + 2 := by omega
  by_cases hp : pyStrip fr.2 = []
  · rw [chunkStep_empty cs os st fr hp]; exact ⟨h1, h2⟩
  · by_cases hcur : st.curText = []
    · by_cases hfit : 2 + (pyStrip fr.2).length ≤ cs
      · rw [chunkStep_fits_emptycur cs os st fr hp hcur hfit]
        exact ⟨hple, h2⟩
      · rw [chunkStep_flush_emptycur cs os st fr hp hcur hfit]
        exact ⟨hple, h2⟩
    · by_cases hfit : st.curText.length + 2 + (pyStrip fr.2).length ≤ cs
      · rw [chunkStep_fits cs os st fr hp hcur hfit]
        refine ⟨?_, h2⟩
        simp [sep]
        omega
      · by_cases hov : os > 0 ∧ st.curText.length > os
        · rw [chunkStep_flush_overlap cs os st fr hp hcur hfit hov.1 hov.2]
          have htl : (takeLast os st.curText).length = os :=
            takeLast_length (Nat.le_of_lt hov.2)
          refine ⟨?_, flush_chunk_size h2 h1⟩
          simp [htl, sep]
          omega
        · rw [chunkStep_flush_plain cs os st fr hp hcur hfit hov]
          exact ⟨hple, flush_chunk_size h2 h1⟩

theorem foldl_SizeInv (cs os : Nat) (frames : List (List Char × List Char))
    (st : ChunkAcc) (hfr : ∀ fr ∈ frames, (pyStrip fr.2).length ≤ cs)
    (h : SizeInv cs os st) :
    SizeInv cs os (frames.foldl (chunkStep cs os) st) := by
  induction frames generalizing st with
  | nil => exact h
  | cons f rest ih =>
    exact ih _ (fun fr hf => hfr fr (List.mem_cons_of_mem _ hf))
      (chunkStep_SizeInv cs os st f (hfr f (List.mem_cons_self _ _)) h)

theorem chunksOfFrames_size (cs os : Nat) (frames : List (List Char × List Char))
    (hfr : ∀ fr ∈ frames, (pyStrip fr.2).length ≤ cs) :
    ∀ c ∈ chunksOfFrames cs os frames, c.text.length ≤ cs + os + 2 := by
  have h := foldl_SizeInv cs os frames ⟨[], [], 0, 0, []⟩ hfr ⟨by simp, by simp⟩
  unfold chunksOfFrames
  exact flush_chunk_size h.2 h.1

theorem flush_chunk_mem {chunks : List Chunk} {textAcc heading : List Char}
    {start endP : Nat} {c : Chunk} (h : c ∈ chunks) :
    c ∈ flush_chunk chunks textAcc heading start endP := by
  unfold flush_chunk
  split
  · exact h
  · exact List.mem_append_left _ h

theorem flush_chunk_covers {chunks : List Chunk} {textAcc heading : List Char}
    {start endP : Nat} {q : List Char} (hq : Clean q) (h : q <:+: textAcc) :
    ∃ c ∈ flush_chunk chunks textAcc heading start endP, q <:+: c.text := by
  have hnil : pyStrip textAcc ≠ [] := by
    intro hx
    have hall := pyStrip_eq_nil_all_space hx
    obtain ⟨hne, hh, _⟩ := hq
    obtain ⟨c0, q0, rfl⟩ := List.exists_cons_of_ne_nil hne
    have hmem : c0 ∈ textAcc := h.sublist.subset (by simp)
    have := hall c0 hmem
    rw [hh c0 rfl] at this
    cases this
  unfold flush_chunk
  rw [if_neg hnil]
  exact ⟨⟨heading, start, endP, pyStrip textAcc⟩,
    List.mem_append_right _ (by simp), infix_pyStrip_of_clean hq h⟩

theorem infix_append_right_of (q l t : List Char) (h : q <:+: l) : q <:+: l ++ t :=
  h.trans ((List.prefix_append l t).isInfix)

theorem chunkStep_covers (cs os : Nat) (st : ChunkAcc) (fr : List Char × List Char)
    {q : List Char} (hq : Clean q) (h : CoveredBy st q) :
    CoveredBy (chunkStep cs os st fr) q := by
  have hqnil : q ≠ [] := hq.1
  by_cases hp : pyStrip fr.2 = []
  · rw [chunkStep_empty cs os st fr hp]; exact h
  · have hchunks : ∀ st' : ChunkAcc, st'.chunks = st.chunks →
        (∃ c ∈ st.chunks, q <:+: c.text) → CoveredBy st' q := by
      intro st' hst' hc
      exact Or.inl (hst' ▸ hc)
    by_cases hcur : st.curText = []
    · have hviacur : ¬ q <:+: st.curText := by
        rw [hcur]
        intro hqi
        exact hqnil (List.eq_nil_of_sublist_nil hqi.sublist)
      have hvia : ∃ c ∈ st.chunks, q <:+: c.text := h.resolve_right hviacur
      by_cases hfit : 2 + (pyStrip fr.2).length ≤ cs
      · rw [chunkStep_fits_emptycur cs os st fr hp hcur hfit]
        exact Or.inl hvia
      · rw [chunkStep_flush_emptycur cs os st fr hp hcur hfit]
        exact Or.inl hvia
    · by_cases hfit : st.curText.length + 2 + (pyStrip fr.2).length ≤ cs
      · rw [chunkStep_fits cs os st fr hp hcur hfit]
        rcases h with hc | hc
        · exact Or.inl hc
        · exact Or.inr (by
            rw [show st.curText ++ sep ++ pyStrip fr.2 =
              st.curText ++ (sep ++ pyStrip fr.2) by simp]
            exact infix_append_right_of _ _ _ hc)
      · have hflush : ∀ hcase : CoveredBy st q,
            ∃ c ∈ flush_chunk st.chunks st.curText st.curHeading st.startChar
              (st.startChar + st.curText.length), q <:+: c.text := by
          intro hcase
          rcases hcase with hc | hc
          · obtain ⟨c, hcm, hci⟩ := hc
            exact ⟨c, flush_chunk_mem hcm, hci⟩
          · exact flush_chunk_covers hq hc
        by_cases hov : os > 0 ∧ st.curText.length > os
        · rw [chunkStep_flush_overlap cs os st fr hp hcur hfit hov.1 hov.2]
          exact Or.inl (hflush h)
        · rw [chunkStep_flush_plain cs os st fr hp hcur hfit hov]
          exact Or.inl (hflush h)

theorem chunkStep_adds (cs os : Nat) (st : ChunkAcc) (fr : List Char × List Char)
    (hp : pyStrip fr.2 ≠ []) :
    CoveredBy (chunkStep cs os st fr) (pyStrip fr.2) := by
  have hsuf : ∀ l : List Char, pyStrip fr.2 <:+: l ++ sep ++ pyStrip fr.2 :=
    fun l => (List.suffix_append (l ++ sep) (pyStrip fr.2)).isInfix.trans
      (by rw [List.append_assoc])
  by_cases hcur : st.curText = []
  · by_cases hfit : 2 + (pyStrip fr.2).length ≤ cs
    · rw [chunkStep_fits_emptycur cs os st fr hp hcur hfit]
      exact Or.inr (List.infix_refl _)
    · rw [chunkStep_flush_emptycur cs os st fr hp hcur hfit]
      exact Or.inr (List.infix_refl _)
  · by_cases hfit : st.curText.length + 2 + (pyStrip fr.2).length ≤ cs
    · rw [chunkStep_fits cs os st fr hp hcur hfit]
      exact Or.inr (hsuf st.curText)
    · by_cases hov : os > 0 ∧ st.curText.length > os
      · rw [chunkStep_flush_overlap cs os st fr hp hcur hfit hov.1 hov.2]
        exact Or.inr (hsuf (takeLast os st.curText))
      · rw [chunkStep_flush_plain cs os st fr hp hcur hfit hov]
        exact Or.inr (List.infix_refl _)

theorem foldl_covers (cs os : Nat) (frames : List (List Char × List Char))
    (st : ChunkAcc) {q : List Char} (hq : Clean q) (h : CoveredBy st q) :
    CoveredBy (frames.foldl (chunkStep cs os) st) q := by
  induction frames generalizing st with
  | nil => exact h
  | cons f rest ih => exact ih _ (chunkStep_covers cs os st f hq h)

theorem chunksOfFrames_covers (cs os : Nat) (frames : List (List Char × List Char))
    (fr : List Char × List Char) (hfr : fr ∈ frames) (hp : pyStrip fr.2 ≠ []) :
    ∃ c ∈ chunksOfFrames cs os frames, pyStrip fr.2 <:+: c.text := by
  have hq : Clean (pyStrip fr.2) := clean_pyStrip hp
  have hcov : CoveredBy (frames.foldl (chunkStep cs os) ⟨[], [], 0, 0, []⟩)
      (pyStrip fr.2) := by
    obtain ⟨l1, l2, rfl⟩ := List.append_of_mem hfr
    rw [List.foldl_append]
    rw [List.foldl_cons]
    exact foldl_covers cs os l2 _ hq
      (chunkStep_adds cs os (l1.foldl (chunkStep cs os) ⟨[], [], 0, 0, []⟩) fr hp)
  unfold chunksOfFrames
  rcases hcov with hc | hc
  · obtain ⟨c, hcm, hci⟩ := hc
    exact ⟨c, flush_chunk_mem hcm, hci⟩
  · exact flush_chunk_covers hq hc

theorem splitRun_paras_shape :
    ∀ (lines : List (List Char)) (inF : Bool) (buf : List (List Char)),
      ∀ p ∈ (splitRun lines inF buf).1, ∃ x, p = pyStrip x := by
  intro lines
  induction lines with
  | nil => intro inF buf p hp; simp [splitRun] at hp
  | cons ln rest ih =>
    intro inF buf p hp
    rw [splitRun] at hp
    split at hp
    · exact ih _ _ p hp
    · split at hp
      · split at hp
        · exact ih _ _ p hp
        · simp only [List.mem_cons] at hp
          rcases hp with hp | hp
          · exact ⟨joinLines buf, hp⟩
          · exact ih _ _ p hp
      · exact ih _ _ p hp

theorem runParas_shape (lines : List (List Char)) (inF : Bool)
    (buf : List (List Char)) :
    ∀ p ∈ runParas lines inF buf, ∃ x, p = pyStrip x := by
  intro p hp
  unfold runParas at hp
  rcases List.mem_append.mp hp with h | h
  · exact splitRun_paras_shape lines inF buf p h
  · split at h
    · simp at h
    · simp at h
      exact ⟨_, h⟩

theorem paras_clean (text : List Char) :
    ∀ p ∈ split_paragraphs_preserving text, pyStrip p = p ∧ p ≠ [] := by
  intro p hp
  unfold split_paragraphs_preserving at hp
  have hmem := List.mem_of_mem_filter hp
  have hprop := List.of_mem_filter hp
  obtain ⟨x, rfl⟩ := runParas_shape _ _ _ p hmem
  refine ⟨pyStrip_idem x, ?_⟩
  intro hnil
  rw [hnil] at hprop
  simp at hprop

theorem parPositionsGo_length (ps : List (List Char)) (s : List Char) (pos : Nat) :
    (parPositionsGo ps s pos).length = ps.length := by
  induction ps generalizing pos with
  | nil => rfl
  | cons p rest ih => simp [parPositionsGo, ih]

theorem chunk_markdown_fst (text : List Char) (cs os : Nat) :
    (chunk_markdown text cs os).1 = chunksOfFrames cs os (framesOf text) := by
  simp only [chunk_markdown, framesOf]

theorem framesOf_map_snd (text : List Char) :
    (framesOf text).map Prod.snd = split_paragraphs_preserving (strip_front_matter text) := by
  unfold framesOf
  rw [List.map_map]
  have hlen : (parPositionsGo (split_paragraphs_preserving (strip_front_matter text))
      (strip_front_matter text) 0).length =
      (split_paragraphs_preserving (strip_front_matter text)).length :=
    parPositionsGo_length _ _ _
  have : (Prod.snd ∘ fun ip : Nat × List Char =>
      (contextOf (headings_positions (strip_front_matter text)) ip.1, ip.2)) = Prod.snd := by
    funext ip; rfl
  rw [this]
  exact List.map_snd_zip _ _ (Nat.le_of_eq hlen.symm)

theorem exists_frame_of_para {text : List Char} {p : List Char}
    (hp : p ∈ split_paragraphs_preserving (strip_front_matter text)) :
    ∃ fr ∈ framesOf text, fr.2 = p := by
  rw [← framesOf_map_snd text] at hp
  obtain ⟨fr, hfr, hsnd⟩ := List.mem_map.mp hp
  exact ⟨fr, hfr, hsnd⟩

theorem frame_snd_para {text : List Char} {fr : List Char × List Char}
    (h : fr ∈ framesOf text) :
    fr.2 ∈ split_paragraphs_preserving (strip_front_matter text) := by
  rw [← framesOf_map_snd text]
  exact List.mem_map.mpr ⟨fr, h, rfl⟩

/-- C2 counterexample: with `chunk_size = 10`, `overlap = 3` on
`"aaaaaaaa\n\nbbbbbbbbb"` no paragraph exceeds `chunk_size` (lengths 8 and
9), yet the second emitted chunk (seeded as overlap tail + blank-line
separator + paragraph) has text length `14 > chunk_size + overlap = 13`. -/
theorem C2_counterexample :
    ((chunk_markdown "aaaaaaaa\n\nbbbbbbbbb".toList 10 3).1.map
      (fun c => c.text.length)) = [8, 14] ∧
    ¬((14 : Nat) ≤ 10 + 3) ∧
    (∀ p ∈ split_paragraphs_preserving
      (strip_front_matter "aaaaaaaa\n\nbbbbbbbbb".toList), p.length ≤ 10) :=
  ⟨by decide, by decide, by decide⟩

/-- C2 (amended): (1) when every paragraph is at most `chunk_size` long,
every emitted chunk's text has length at most `chunk_size + overlap + 2`
(the `+ 2` paid for the blank-line separator glued after the seeded overlap
tail); (2) no paragraph — oversized or not — is ever split: each paragraph
occurs contiguously inside some emitted chunk's text (an oversized paragraph
therefore stays intact, though under overlap seeding it may share its chunk
with the retained overlap tail rather than standing strictly alone). -/
theorem para_in_some_chunk (text : List Char) (cs os : Nat) {p : List Char}
    (hp : p ∈ split_paragraphs_preserving (strip_front_matter text)) :
    ∃ c ∈ (chunk_markdown text cs os).1, p <:+: c.text := by
  obtain ⟨fr, hfr, hsnd⟩ := exists_frame_of_para hp
  have hclean := paras_clean _ _ hp
  rw [chunk_markdown_fst]
  have hcov := chunksOfFrames_covers cs os (framesOf text) fr hfr
    (by rw [hsnd, hclean.1]; exact hclean.2)
  rw [hsnd, hclean.1] at hcov
  exact hcov

theorem C2_size_bound_and_unsplit (text : List Char) (cs os : Nat) :
    ((∀ p ∈ split_paragraphs_preserving (strip_front_matter text), p.length ≤ cs) →
      ∀ c ∈ (chunk_markdown text cs os).1, c.text.length ≤ cs + os + 2) ∧
    (∀ p ∈ split_paragraphs_preserving (strip_front_matter text),
      ∃ c ∈ (chunk_markdown text cs os).1, p <:+: c.text) := by
  constructor
  · intro hps
    rw [chunk_markdown_fst]
    refine chunksOfFrames_size cs os (framesOf text) ?_
    intro fr hfr
    have hsnd := frame_snd_para hfr
    have hclean := paras_clean _ _ hsnd
    rw [hclean.1]
    exact hps _ hsnd
  · intro p hp
    exact para_in_some_chunk text cs os hp

/-- C2 witness: the amended statement instantiated on a concrete document. -/
theorem C2_witness :
    (∀ p ∈ split_paragraphs_preserving (strip_front_matter "hi\n\nyo".toList),
      p.length ≤ 10) ∧
    (∀ c ∈ (chunk_markdown "hi\n\nyo".toList 10 0).1, c.text.length ≤ 10 + 0 + 2) ∧
    (∀ p ∈ split_paragraphs_preserving (strip_front_matter "hi\n\nyo".toList),
      ∃ c ∈ (chunk_markdown "hi\n\nyo".toList 10 0).1, p <:+: c.text) :=
  ⟨by decide, (C2_size_bound_and_unsplit "hi\n\nyo".toList 10 0).1 (by decide),
    (C2_size_bound_and_unsplit "hi\n\nyo".toList 10 0).2⟩

theorem parseHeadingsGo_filterMap (lines : List (List Char)) (inF : Bool) :
    parseHeadingsGo lines inF =
      (lines.zip (fenceStates lines inF)).filterMap
        (fun lb => if isFenceLine lb.1 || lb.2 then none else headingOf lb.1) := by
  induction lines generalizing inF with
  | nil => rfl
  | cons ln rest ih =>
    rw [parseHeadingsGo, fenceStates, List.zip_cons_cons, List.filterMap_cons]
    by_cases hf : isFenceLine ln
    · simp [hf, ih]
    · by_cases hin : inF
      · simp [hf, hin, ih]
      · cases hh : headingOf ln with
        | none => simp [hf, hin, hh, ih]
        | some h => simp [hf, hin, hh, ih]

/-- C3 counterexample: in `"```\n# Fake\n```\n\npara here"` the second line
matches the heading pattern and lies between the two fence lines (its fence
state is `true`).  As required it contributes no TOC entry, but with
`chunk_size = 10` it IS chosen as the second chunk's context heading —
contradicting the claim that such a line is never chosen as any paragraph's
context heading. -/
theorem C3_counterexample :
    parse_headings "```\n# Fake\n```\n\npara here".toList = [] ∧
    (fenceStates (splitLines "```\n# Fake\n```\n\npara here".toList) false).getD 1 false
      = true ∧
    isFenceLine ((splitLines "```\n# Fake\n```\n\npara here".toList).getD 1 []) = false ∧
    headingOf ((splitLines "```\n# Fake\n```\n\npara here".toList).getD 1 []) =
      some (1, "Fake".toList) ∧
    (chunk_markdown "```\n# Fake\n```\n\npara here".toList 10 0).1.map
      (fun c => c.heading) = [[], "Fake".toList] :=
  ⟨by decide, by decide, by decide, by decide, by decide⟩

/-- C3 (amended): heading detection is suppressed inside fenced code blocks
for the table of contents — `parse_headings` keeps exactly the heading lines
whose fence state is `false` — but the heading *positions* used as
positional anchors for context assignment are computed without any fence
tracking, so a heading-pattern line inside a fence can become a chunk's
context heading (witnessed concretely on the document of the
counterexample). -/
theorem C3_fence_suppression_toc_only :
    (∀ (lines : List (List Char)) (inF : Bool),
      parseHeadingsGo lines inF =
        (lines.zip (fenceStates lines inF)).filterMap
          (fun lb => if isFenceLine lb.1 || lb.2 then none else headingOf lb.1)) ∧
    (headings_positions "```\n# Fake\n```\n\npara here".toList =
      [(4, 1, "Fake".toList)] ∧
     parse_headings "```\n# Fake\n```\n\npara here".toList = [] ∧
     (chunk_markdown "```\n# Fake\n```\n\npara here".toList 10 0).1.map
       (fun c => c.heading) = [[], "Fake".toList]) :=
  ⟨parseHeadingsGo_filterMap, by decide, by decide, by decide⟩

theorem splitRun_buf_suffix (lines : List (List Char)) (inF : Bool)
    (buf : List (List Char)) :
    (splitRun lines inF buf).2.2 <:+ buf ++ lines := by
  induction lines generalizing inF buf with
  | nil => simp [splitRun]
  | cons ln rest ih =>
    rw [splitRun]
    by_cases hf : isFenceLine ln
    · rw [if_pos hf]
      have h := ih (!inF) (buf ++ [ln])
      simpa [List.append_assoc] using h
    · rw [if_neg hf]
      by_cases hb : (!inF && (pyStrip ln).isEmpty) = true
      · rw [if_pos hb]
        by_cases hbuf : buf.isEmpty
        · rw [if_pos hbuf]
          have hbuf' : buf = [] := List.isEmpty_iff.mp hbuf
          subst hbuf'
          have h := ih inF []
          simp only [List.nil_append] at h ⊢
          exact h.trans ((List.suffix_cons ln rest))
        · rw [if_neg hbuf]
          have h := ih inF []
          simp only [List.nil_append] at h
          refine h.trans ?_
          refine (List.suffix_cons ln rest).trans ?_
          exact List.suffix_append buf (ln :: rest)
      · rw [if_neg hb]
        have h := ih inF (buf ++ [ln])
        simpa [List.append_assoc] using h

theorem splitRun_append (xs ys : List (List Char)) (inF : Bool)
    (buf : List (List Char)) :
    splitRun (xs ++ ys) inF buf =
      ((splitRun xs inF buf).1 ++
        (splitRun ys (splitRun xs inF buf).2.1 (splitRun xs inF buf).2.2).1,
       (splitRun ys (splitRun xs inF buf).2.1 (splitRun xs inF buf).2.2).2) := by
  induction xs generalizing inF buf with
  | nil => simp [splitRun]
  | cons ln rest ih =>
    rw [List.cons_append, splitRun]
    by_cases hf : isFenceLine ln
    · rw [if_pos hf, ih]
      rw [splitRun, if_pos hf]
    · rw [if_neg hf]
      by_cases hb : (!inF && (pyStrip ln).isEmpty) = true
      · rw [if_pos hb]
        by_cases hbuf : buf.isEmpty
        · rw [if_pos hbuf, ih]
          rw [splitRun, if_neg hf, if_pos hb, if_pos hbuf]
        · rw [if_neg hbuf]
          rw [splitRun, if_neg hf, if_pos hb, if_neg hbuf]
          simp [ih]
      · rw [if_neg hb, ih]
        rw [splitRun, if_neg hf, if_neg hb]

theorem splitRun_fenceState (lines : List (List Char)) :
    ∀ (inF : Bool) (buf : List (List Char)),
      (splitRun lines inF buf).2.1 = (inF ^^ (countFences lines % 2 == 1)) := by
  induction lines with
  | nil => intro inF buf; simp [splitRun, countFences]
  | cons ln rest ih =>
    intro inF buf
    rw [splitRun]
    by_cases hf : isFenceLine ln
    · rw [if_pos hf, ih]
      have hcf : countFences (ln :: rest) = countFences rest + 1 := by
        simp [countFences, hf]
      rw [hcf]
      rcases Nat.mod_two_eq_zero_or_one (countFences rest) with h | h <;>
        · rw [Nat.add_mod, h]
          cases inF <;> simp [h]
    · have hcf : countFences (ln :: rest) = countFences rest := by
        simp [countFences, hf]
      rw [if_neg hf, hcf]
      by_cases hb : (!inF && (pyStrip ln).isEmpty) = true
      · rw [if_pos hb]
        by_cases hbuf : buf.isEmpty
        · rw [if_pos hbuf, ih]
        · rw [if_neg hbuf]
          simp [ih]
      · rw [if_neg hb, ih]

theorem splitRun_nofence_inFence (post : List (List Char)) :
    ∀ (buf : List (List Char)), countFences post = 0 →
      splitRun post true buf = ([], true, buf ++ post) := by
  induction post with
  | nil => intro buf _; simp [splitRun]
  | cons ln rest ih =>
    intro buf hnf
    have hf : isFenceLine ln = false := by
      by_contra hc
      simp only [Bool.not_eq_false] at hc
      simp [countFences, hc] at hnf
    have hr : countFences rest = 0 := by
      simpa [countFences, hf] using hnf
    rw [splitRun, if_neg (by simp [hf]), if_neg (by simp), ih _ hr]
    simp

theorem exists_last_fence {lines : List (List Char)} (h : countFences lines ≠ 0) :
    ∃ pre lf post, lines = pre ++ lf :: post ∧ isFenceLine lf = true ∧
      countFences post = 0 := by
  induction lines with
  | nil => simp [countFences] at h
  | cons ln rest ih =>
    by_cases hr : countFences rest = 0
    · have hf : isFenceLine ln = true := by
        by_contra hc
        simp only [Bool.not_eq_true] at hc
        have hsame : countFences (ln :: rest) = countFences rest := by
          simp [countFences, hc]
        exact h (hsame.trans hr)
      exact ⟨[], ln, rest, rfl, hf, hr⟩
    · obtain ⟨pre, lf, post, heq, hlf, hpost⟩ := ih hr
      exact ⟨ln :: pre, lf, post, by rw [heq]; simp, hlf, hpost⟩

theorem mem_infix_joinLines {l : List Char} {ls : List (List Char)} (h : l ∈ ls) :
    l <:+: joinLines ls := by
  induction ls with
  | nil => cases h
  | cons x rest ih =>
    rcases List.mem_cons.mp h with h | h
    · subst h
      cases rest with
      | nil => exact List.infix_refl _
      | cons a b =>
        rw [joinLines_cons _ _ (List.cons_ne_nil a b)]
        exact (List.prefix_append _ _).isInfix
    · have hne : rest ≠ [] := List.ne_nil_of_mem h
      rw [joinLines_cons _ _ hne]
      refine (ih h).trans ?_
      rw [show x ++ '\n' :: joinLines rest = (x ++ ['\n']) ++ joinLines rest by simp]
      exact (List.suffix_append _ _).isInfix

theorem fenceLine_strip_ne_nil {lf : List Char} (h : isFenceLine lf = true) :
    pyStrip lf ≠ [] := by
  intro hx
  unfold isFenceLine at h
  rw [hx] at h
  simp [fenceMarker] at h

theorem filter_getLast_concat {l : List (List Char)} {a : List Char}
    {p : List Char → Bool} (hp : p a = true) :
    ((l ++ [a]).filter p).getLast? = some a := by
  rw [List.filter_append]
  have : List.filter p [a] = [a] := by simp [hp]
  rw [this]
  exact List.getLast?_concat _

/-- C10: if the document contains an odd number of fence-delimiter lines
(an unterminated fence), the paragraph splitter never breaks again after
the last fence line: there is a split of the line list at the last fence
line (no fence line after it), and the final emitted paragraph is the
stripped join of a contiguous suffix of lines that starts at or before the
last fence line — i.e. every line after the last fence delimiter, blank
lines included, is swallowed into the single final paragraph. -/
theorem C10_unterminated_fence_swallows (text : List Char)
    (hodd : Odd (countFences (splitLines text))) :
    ∃ pre lf post j,
      splitLines text = pre ++ lf :: post ∧ isFenceLine lf = true ∧
      countFences post = 0 ∧ j ≤ pre.length ∧
      (split_paragraphs_preserving text).getLast? =
        some (pyStrip (joinLines ((splitLines text).drop j))) := by
  have hne : countFences (splitLines text) ≠ 0 := by
    rcases hodd with ⟨k, hk⟩
    omega
  obtain ⟨pre, lf, post, heq, hlf, hpost⟩ := exists_last_fence hne
  have hparity : countFences pre % 2 = 0 := by
    have htot : countFences (splitLines text) = countFences pre + 1 + countFences post := by
      rw [heq]
      simp [countFences, List.filter_append, hlf]
      omega
    rw [hpost] at htot
    rcases hodd with ⟨k, hk⟩
    omega
  have hstate : (splitRun pre false []).2.1 = false := by
    rw [splitRun_fenceState]
    simp [hparity]
  obtain ⟨s1, sF, s22, hs⟩ : ∃ a b c, splitRun pre false [] = (a, b, c) :=
    ⟨_, _, _, rfl⟩
  rw [hs] at hstate
  simp only at hstate
  subst hstate
  have hsuf := splitRun_buf_suffix pre false []
  rw [hs] at hsuf
  simp only [List.nil_append] at hsuf
  obtain ⟨t, ht⟩ := hsuf
  have hrun : splitRun (splitLines text) false [] = (s1, true, (s22 ++ [lf]) ++ post) := by
    rw [heq, splitRun_append, hs]
    simp only
    rw [show splitRun (lf :: post) false s22 =
        splitRun post (!false) (s22 ++ [lf]) from by rw [splitRun, if_pos hlf]]
    simp only [Bool.not_false]
    rw [splitRun_nofence_inFence post _ hpost]
    simp
  have hbufne : (s22 ++ [lf]) ++ post ≠ [] := by simp
  refine ⟨pre, lf, post, t.length, heq, hlf, hpost, ?_, ?_⟩
  · rw [← ht]
    simp
  · have hdrop : (splitLines text).drop t.length = (s22 ++ [lf]) ++ post := by
      have h1 : splitLines text = t ++ (s22 ++ lf :: post) := by
        rw [heq, ← ht]
        simp
      rw [h1, List.drop_left]
      simp
    rw [hdrop]
    unfold split_paragraphs_preserving runParas
    rw [hrun]
    simp only []
    have hlast : pyStrip (joinLines ((s22 ++ [lf]) ++ post)) ≠ [] := by
      intro hx
      have hmem : lf ∈ (s22 ++ [lf]) ++ post := by simp
      have hinf := mem_infix_joinLines hmem
      have hstriplf := fenceLine_strip_ne_nil hlf
      have hclean := clean_pyStrip hstriplf
      have hinf2 : pyStrip lf <:+: joinLines ((s22 ++ [lf]) ++ post) :=
        (pyStrip_infix_self lf).trans hinf
      have hfin := infix_pyStrip_of_clean hclean hinf2
      rw [hx] at hfin
      exact hstriplf (List.eq_nil_of_sublist_nil hfin.sublist)
    rw [if_neg hbufne]
    exact filter_getLast_concat (by simpa using hlast)

/-- C10 witness: a document whose single fence line is never closed. -/
theorem C10_witness :
    Odd (countFences (splitLines "a\n```\nb\n\nc".toList)) ∧
    (∃ pre lf post j,
      splitLines "a\n```\nb\n\nc".toList = pre ++ lf :: post ∧ isFenceLine lf = true ∧
      countFences post = 0 ∧ j ≤ pre.length ∧
      (split_paragraphs_preserving "a\n```\nb\n\nc".toList).getLast? =
        some (pyStrip (joinLines ((splitLines "a\n```\nb\n\nc".toList).drop j)))) :=
  ⟨by decide, C10_unterminated_fence_swallows _ (by decide)⟩

theorem joinLines_append (l1 l2 : List (List Char)) (h1 : l1 ≠ []) (h2 : l2 ≠ []) :
    joinLines (l1 ++ l2) = joinLines l1 ++ '\n' :: joinLines l2 := by
  induction l1 with
  | nil => exact absurd rfl h1
  | cons x rest ih =>
    cases rest with
    | nil =>
      simp only [List.singleton_append]
      rw [joinLines_cons x l2 h2]
      rfl
    | cons a b =>
      rw [show (x :: a :: b) ++ l2 = x :: ((a :: b) ++ l2) by simp]
      rw [joinLines_cons x ((a :: b) ++ l2) (by simp)]
      rw [joinLines_cons x (a :: b) (by simp)]
      rw [ih (by simp)]
      simp

theorem prefix_joinLines (l ext : List (List Char)) :
    joinLines l <+: joinLines (l ++ ext) := by
  cases l with
  | nil => exact List.nil_prefix
  | cons x rest =>
    cases ext with
    | nil =>
      rw [List.append_nil]
    | cons e es =>
      rw [joinLines_append (x :: rest) (e :: es) (by simp) (by simp)]
      exact List.prefix_append _ _

theorem suffix_append_singleton {l1 l2 : List (List Char)} (x : List Char)
    (h : l1 <:+ l2) : l1 ++ [x] <:+ l2 ++ [x] := by
  obtain ⟨t, rfl⟩ := h
  exact ⟨t, by simp⟩

theorem strip_join_ne_nil_of_fence {ln : List Char} {ls : List (List Char)}
    (hmem : ln ∈ ls) (hlf : isFenceLine ln = true) :
    pyStrip (joinLines ls) ≠ [] := by
  intro hx
  have hinf := mem_infix_joinLines hmem
  have hstriplf := fenceLine_strip_ne_nil hlf
  have hclean := clean_pyStrip hstriplf
  have hinf2 : pyStrip ln <:+: joinLines ls := (pyStrip_infix_self ln).trans hinf
  have hfin := infix_pyStrip_of_clean hclean hinf2
  rw [hx] at hfin
  exact hstriplf (List.eq_nil_of_sublist_nil hfin.sublist)

theorem fencedBlocks_ne_nil :
    ∀ (lines : List (List Char)) (inF : Bool) (cur : List (List Char)),
      ∀ b ∈ fencedBlocksGo lines inF cur, b ≠ [] := by
  intro lines
  induction lines with
  | nil => intro inF cur b hb; simp [fencedBlocksGo] at hb
  | cons ln rest ih =>
    intro inF cur b hb
    rw [fencedBlocksGo] at hb
    by_cases hf : isFenceLine ln
    · rw [if_pos hf] at hb
      by_cases hin : inF = true
      · rw [if_pos hin] at hb
        rcases List.mem_cons.mp hb with hb | hb
        · rw [hb]
          exact strip_join_ne_nil_of_fence (by simp) hf
        · exact ih false [] b hb
      · rw [if_neg hin] at hb
        exact ih true [ln] b hb
    · rw [if_neg hf] at hb
      by_cases hin : inF = true
      · rw [if_pos hin] at hb
        exact ih true (cur ++ [ln]) b hb
      · rw [if_neg hin] at hb
        exact ih false cur b hb

theorem runParas_cons_fence {ln : List Char} (rest : List (List Char)) (inF : Bool)
    (buf : List (List Char)) (hf : isFenceLine ln = true) :
    runParas (ln :: rest) inF buf = runParas rest (!inF) (buf ++ [ln]) := by
  unfold runParas
  rw [splitRun, if_pos hf]

theorem runParas_cons_append {ln : List Char} (rest : List (List Char)) (inF : Bool)
    (buf : List (List Char)) (hf : isFenceLine ln = false)
    (hb : (!inF && (pyStrip ln).isEmpty) = false) :
    runParas (ln :: rest) inF buf = runParas rest inF (buf ++ [ln]) := by
  unfold runParas
  rw [splitRun, if_neg (by simp [hf]), if_neg (by simp [hb])]

theorem runParas_cons_flush {ln : List Char} (rest : List (List Char)) (inF : Bool)
    (buf : List (List Char)) (hf : isFenceLine ln = false)
    (hb : (!inF && (pyStrip ln).isEmpty) = true) (hbuf : buf ≠ []) :
    runParas (ln :: rest) inF buf =
      pyStrip (joinLines buf) :: runParas rest inF [] := by
  unfold runParas
  rw [splitRun, if_neg (by simp [hf]), if_pos hb, if_neg (by simpa using hbuf)]
  simp

theorem runParas_cons_skip {ln : List Char} (rest : List (List Char)) (inF : Bool)
    (hf : isFenceLine ln = false) (hb : (!inF && (pyStrip ln).isEmpty) = true) :
    runParas (ln :: rest) inF [] = runParas rest inF [] := by
  unfold runParas
  rw [splitRun, if_neg (by simp [hf]), if_pos hb, if_pos (by simp)]

theorem buf_in_runParas :
    ∀ (lines : List (List Char)) (inF : Bool) (buf : List (List Char)),
      buf ≠ [] →
      ∃ ext, pyStrip (joinLines (buf ++ ext)) ∈ runParas lines inF buf := by
  intro lines
  induction lines with
  | nil =>
    intro inF buf hbuf
    refine ⟨[], ?_⟩
    show pyStrip (joinLines (buf ++ [])) ∈
      ([] : List (List Char)) ++ (if buf = [] then [] else [pyStrip (joinLines buf)])
    rw [if_neg hbuf]
    simp
  | cons ln rest ih =>
    intro inF buf hbuf
    by_cases hf : isFenceLine ln
    · rw [runParas_cons_fence rest inF buf hf]
      obtain ⟨ext, hmem⟩ := ih (!inF) (buf ++ [ln]) (by simp)
      exact ⟨[ln] ++ ext, by simpa [List.append_assoc] using hmem⟩
    · by_cases hb : (!inF && (pyStrip ln).isEmpty) = true
      · rw [runParas_cons_flush rest inF buf (by simpa using hf) hb hbuf]
        exact ⟨[], by simp⟩
      · rw [runParas_cons_append rest inF buf (by simpa using hf) (by simpa using hb)]
        obtain ⟨ext, hmem⟩ := ih inF (buf ++ [ln]) (by simp)
        exact ⟨[ln] ++ ext, by simpa [List.append_assoc] using hmem⟩

theorem blocks_infix_runParas :
    ∀ (lines : List (List Char)) (inF : Bool) (buf cur : List (List Char)),
      cur <:+ buf → (inF = false → cur = []) →
      ∀ b ∈ fencedBlocksGo lines inF cur,
        ∃ p ∈ runParas lines inF buf, b <:+: p := by
  intro lines
  induction lines with
  | nil => intro inF buf cur _ _ b hb; simp [fencedBlocksGo] at hb
  | cons ln rest ih =>
    intro inF buf cur hsuf hcur b hb
    rw [fencedBlocksGo] at hb
    by_cases hf : isFenceLine ln
    · rw [if_pos hf] at hb
      rw [runParas_cons_fence rest inF buf hf]
      by_cases hin : inF = true
      · rw [if_pos hin] at hb
        subst hin
        rcases List.mem_cons.mp hb with hb | hb
        · obtain ⟨ext, hmem⟩ := buf_in_runParas rest false (buf ++ [ln]) (by simp)
          refine ⟨_, hmem, ?_⟩
          have hbne : b ≠ [] := by
            rw [hb]
            exact strip_join_ne_nil_of_fence (by simp) hf
          have hclean : Clean b := by
            rw [hb] at hbne ⊢
            exact clean_pyStrip hbne
          have h1 : b <:+: joinLines (cur ++ [ln]) := by
            rw [hb]; exact pyStrip_infix_self _
          have h2 : joinLines (cur ++ [ln]) <:+ joinLines (buf ++ [ln]) :=
            suffix_joinLines (suffix_append_singleton ln hsuf)
          have h3 : joinLines (buf ++ [ln]) <+: joinLines ((buf ++ [ln]) ++ ext) :=
            prefix_joinLines _ _
          exact infix_pyStrip_of_clean hclean
            ((h1.trans h2.isInfix).trans h3.isInfix)
        · exact ih false (buf ++ [ln]) [] List.nil_suffix (fun _ => rfl) b hb
      · rw [if_neg hin] at hb
        have hinF : inF = false := by simpa using hin
        subst hinF
        exact ih true (buf ++ [ln]) [ln] ⟨buf, rfl⟩
          (fun h => absurd h (by decide)) b hb
    · rw [if_neg hf] at hb
      by_cases hin : inF = true
      · rw [if_pos hin] at hb
        subst hin
        rw [runParas_cons_append rest true buf (by simpa using hf) (by simp)]
        exact ih true (buf ++ [ln]) (cur ++ [ln])
          (suffix_append_singleton ln hsuf) (fun h => absurd h (by decide)) b hb
      · rw [if_neg hin] at hb
        have hinF : inF = false := by simpa using hin
        subst hinF
        have hcur' : cur = [] := hcur rfl
        subst hcur'
        by_cases hblank : (pyStrip ln).isEmpty = true
        · by_cases hbuf : buf = []
          · subst hbuf
            rw [runParas_cons_skip rest false (by simpa using hf) (by simp [hblank])]
            exact ih false [] [] List.nil_suffix (fun _ => rfl) b hb
          · rw [runParas_cons_flush rest false buf (by simpa using hf)
              (by simp [hblank]) hbuf]
            obtain ⟨p, hp, hbp⟩ :=
              ih false [] [] List.nil_suffix (fun _ => rfl) b hb
            exact ⟨p, List.mem_cons_of_mem _ hp, hbp⟩
        · rw [runParas_cons_append rest false buf (by simpa using hf)
            (by simp [hblank])]
          exact ih false (buf ++ [ln]) [] List.nil_suffix (fun _ => rfl) b hb

theorem block_in_some_para {text : List Char} {b : List Char}
    (hb : b ∈ fencedBlocks text) :
    ∃ p ∈ split_paragraphs_preserving text, b <:+: p := by
  obtain ⟨p, hp, hbp⟩ := blocks_infix_runParas (splitLines text) false [] []
    List.nil_suffix (fun _ => rfl) b hb
  refine ⟨p, ?_, hbp⟩
  unfold split_paragraphs_preserving
  rw [List.mem_filter]
  refine ⟨hp, ?_⟩
  have hbne : b ≠ [] := fencedBlocks_ne_nil (splitLines text) false [] b hb
  have hpne : p ≠ [] := by
    intro hx
    rw [hx] at hbp
    exact hbne (List.eq_nil_of_sublist_nil hbp.sublist)
  simpa using hpne

/-- C7: a fenced code block (here: one whose stripped text fits in
`chunk_size`, although the proof does not need the bound) is never split
across two chunks: the paragraph splitter keeps the whole fence inside one
paragraph, and the chunker keeps every paragraph contiguous inside a single
chunk's text, so the complete block occurs inside one chunk. -/
theorem C7_fence_never_split (text : List Char) (cs os : Nat) (b : List Char)
    (hb : b ∈ fencedBlocks (strip_front_matter text)) (hsize : b.length ≤ cs) :
    ∃ c ∈ (chunk_markdown text cs os).1, b <:+: c.text := by
  obtain ⟨p, hp, hbp⟩ := block_in_some_para hb
  obtain ⟨c, hc, hpc⟩ := para_in_some_chunk text cs os hp
  exact ⟨c, hc, hbp.trans hpc⟩

/-- C7 witness: a concrete fenced block contained in a single chunk. -/
theorem C7_witness :
    ("```\na\n```".toList ∈ fencedBlocks (strip_front_matter "x\n\n```\na\n```".toList) ∧
      "```\na\n```".toList.length ≤ 100) ∧
    ∃ c ∈ (chunk_markdown "x\n\n```\na\n```".toList 100 0).1,
      "```\na\n```".toList <:+: c.text :=
  ⟨⟨by decide, by decide⟩,
    C7_fence_never_split "x\n\n```\na\n```".toList 100 0 "```\na\n```".toList
      (by decide) (by decide)⟩

theorem distLe_le {dist : Nat → Nat → Int} {i a b : Nat}
    (h : distLe dist i a b) : dist i a ≤ dist i b := by
  rcases h with h | ⟨h, -⟩
  · exact le_of_lt h
  · exact le_of_eq h

theorem simGe_ge {sim : Nat → Nat → Int} {i a b : Nat}
    (h : simGe sim i a b) : sim i b ≤ sim i a := by
  rcases h with h | ⟨h, -⟩
  · exact le_of_lt h
  · exact le_of_eq h.symm

theorem sparsePickGo_eq (i k : Nat) :
    ∀ (c : List (Nat × Int)) (cnt : Nat), cnt < k →
      sparsePickGo i k c cnt =
        ((c.filter (fun p => p.1 ≠ i)).map (fun p => (p.1, 1 - p.2))).take (k - cnt) := by
  intro c
  induction c with
  | nil => intro cnt _; simp [sparsePickGo]
  | cons p rest ih =>
    intro cnt hcnt
    obtain ⟨j, d⟩ := p
    rw [sparsePickGo, List.filter_cons]
    by_cases hj : j = i
    · rw [if_pos hj, ih cnt hcnt]
      simp [hj]
    · rw [if_neg hj]
      by_cases hstop : cnt + 1 ≥ k
      · rw [if_pos hstop]
        have hk1 : k - cnt = 1 := by omega
        simp [hj, hk1]
      · rw [if_neg hstop, ih (cnt + 1) (by omega)]
        have hks : k - cnt = (k - (cnt + 1)) + 1 := by omega
        simp [hj, hks]

theorem densePickGo_eq (i : Int) (k : Nat) :
    ∀ (c : List (Int × Int)) (cnt : Nat), cnt < k →
      densePickGo i k c cnt =
        (c.filter (fun p => ¬(p.1 = i ∨ p.1 < 0))).take (k - cnt) := by
  intro c
  induction c with
  | nil => intro cnt _; simp [densePickGo]
  | cons p rest ih =>
    intro cnt hcnt
    obtain ⟨j, s⟩ := p
    rw [densePickGo, List.filter_cons]
    by_cases hj : j = i ∨ j < 0
    · rw [if_pos hj, ih cnt hcnt]
      simp [hj]
    · rw [if_neg hj]
      by_cases hstop : cnt + 1 ≥ k
      · rw [if_pos hstop]
        have hk1 : k - cnt = 1 := by omega
        simp [hj, hk1]
      · rw [if_neg hstop, ih (cnt + 1) (by omega)]
        have hks : k - cnt = (k - (cnt + 1)) + 1 := by omega
        simp [hj, hks]

theorem getD_ne_of_nodup {ids : List (List Char)} (hnd : ids.Nodup) {a b : Nat}
    (ha : a < ids.length) (hb : b < ids.length) (hab : a ≠ b) :
    ids.getD a [] ≠ ids.getD b [] := by
  rw [List.getD_eq_getElem ids [] ha, List.getD_eq_getElem ids [] hb]
  intro h
  have h2 : ids.get ⟨a, ha⟩ = ids.get ⟨b, hb⟩ := by
    simpa [List.get_eq_getElem] using h
  have := (List.Nodup.get_inj_iff hnd).mp h2
  exact hab (by simpa using this)

theorem sparse_row_ok (ids : List (List Char)) (dist : Nat → Nat → Int) (k i : Nat)
    (hk : 1 ≤ k) (hnd : ids.Nodup) (hi : i < ids.length) :
    NeighborRowOK ids k i
      ((sparsePickGo i k (kneighborsRow dist ids.length (min (k + 1) ids.length) i) 0).map
        (fun p => (ids.getD p.1 [], p.2))) := by
  have hperm : (rankedByDist dist ids.length i).Perm (List.range ids.length) :=
    List.perm_insertionSort _ _
  have hlenR : (rankedByDist dist ids.length i).length = ids.length := by
    rw [hperm.length_eq, List.length_range]
  have hsorted : List.Pairwise (distLe dist i) (rankedByDist dist ids.length i) :=
    List.sorted_insertionSort _ _
  have hpick := sparsePickGo_eq i k
    (kneighborsRow dist ids.length (min (k + 1) ids.length) i) 0 (by omega)
  rw [Nat.sub_zero] at hpick
  have hmemT : ∀ j ∈ (rankedByDist dist ids.length i).take (min (k + 1) ids.length),
      j < ids.length := by
    intro j hj
    have : j ∈ rankedByDist dist ids.length i := (List.take_sublist _ _).subset hj
    have := hperm.subset this
    simpa using this
  refine ⟨?_, ?_, ?_, ?_⟩
  · rw [List.length_map, hpick]
    exact le_trans (List.length_take_le _ _) (le_refl k)
  · intro q hq
    obtain ⟨p, hp, rfl⟩ := List.mem_map.mp hq
    rw [hpick] at hp
    have hp2 := (List.take_sublist _ _).subset hp
    obtain ⟨p0, hp0, rfl⟩ := List.mem_map.mp hp2
    have hp0f := List.mem_filter.mp hp0
    have hne : p0.1 ≠ i := by simpa using hp0f.2
    obtain ⟨j, hj, rfl⟩ := List.mem_map.mp hp0f.1
    exact getD_ne_of_nodup hnd (hmemT j hj) hi hne
  · have h1 : List.Pairwise (fun a b => dist i a ≤ dist i b)
        ((rankedByDist dist ids.length i).take (min (k + 1) ids.length)) :=
      (List.Pairwise.sublist (List.take_sublist _ _) hsorted).imp (fun h => distLe_le h)
    have h2 : List.Pairwise (fun p q : Nat × Int => p.2 ≤ q.2)
        (kneighborsRow dist ids.length (min (k + 1) ids.length) i) := by
      unfold kneighborsRow
      exact List.pairwise_map.mpr h1
    have h3 : List.Pairwise (fun p q : Nat × Int => p.2 ≤ q.2)
        ((kneighborsRow dist ids.length (min (k + 1) ids.length) i).filter
          (fun p => p.1 ≠ i)) :=
      List.Pairwise.sublist (List.filter_sublist _) h2
    have h4 : List.Pairwise (fun p q : Nat × Int => q.2 ≤ p.2)
        (((kneighborsRow dist ids.length (min (k + 1) ids.length) i).filter
          (fun p => p.1 ≠ i)).map (fun p => (p.1, 1 - p.2))) := by
      refine List.pairwise_map.mpr (h3.imp ?_)
      intro a b hab
      simp only
      omega
    have h5 := List.Pairwise.sublist (List.take_sublist k _) h4
    rw [hpick]
    exact (List.pairwise_map.mpr (h5.imp (fun h => h))).chain'
  · intro hnk
    have hmin : min (k + 1) ids.length = ids.length := by omega
    have htake : (rankedByDist dist ids.length i).take (min (k + 1) ids.length) =
        rankedByDist dist ids.length i := by
      rw [hmin]
      exact List.take_of_length_le (le_of_eq hlenR)
    have hcomp :
        ((sparsePickGo i k (kneighborsRow dist ids.length (min (k + 1) ids.length) i) 0).map
          (fun p => (ids.getD p.1 [], p.2))).map Prod.fst =
        ((rankedByDist dist ids.length i).filter (fun j => j ≠ i)).map
          (fun j => ids.getD j []) := by
      rw [hpick]
      unfold kneighborsRow
      rw [htake]
      rw [List.filter_map]
      have hcong : List.filter ((fun p : Nat × Int => decide (p.1 ≠ i)) ∘
          (fun j => (j, dist i j))) (rankedByDist dist ids.length i) =
          List.filter (fun j => j ≠ i) (rankedByDist dist ids.length i) := rfl
      rw [hcong]
      rw [List.map_map, List.map_map]
      rw [List.take_of_length_le]
      · rw [List.map_map]
        rfl
      · rw [List.length_map]
        exact le_trans (le_trans (List.length_filter_le _ _) (le_of_eq hlenR)) hnk
    rw [hcomp]
    exact (hperm.filter _).map _

theorem dense_row_ok (ids : List (List Char)) (sim : Nat → Nat → Int) (k i : Nat)
    (hk : 1 ≤ k) (hnd : ids.Nodup) (hi : i < ids.length) :
    NeighborRowOK ids k i
      ((densePickGo (i : Int) k (faissSearchRow sim ids.length (k + 1) i) 0).map
        (fun p => (ids.getD p.1.toNat [], p.2))) := by
  have hperm : (rankedBySim sim ids.length i).Perm (List.range ids.length) :=
    List.perm_insertionSort _ _
  have hlenR : (rankedBySim sim ids.length i).length = ids.length := by
    rw [hperm.length_eq, List.length_range]
  have hsorted : List.Pairwise (simGe sim i) (rankedBySim sim ids.length i) :=
    List.sorted_insertionSort _ _
  have hpick := densePickGo_eq (i : Int) k (faissSearchRow sim ids.length (k + 1) i) 0
    (by omega)
  rw [Nat.sub_zero] at hpick
  have hpad : List.filter (fun p : Int × Int => ¬(p.1 = (i : Int) ∨ p.1 < 0))
      (List.replicate ((k + 1) -
        (((rankedBySim sim ids.length i).take (k + 1)).map
          (fun j => (Int.ofNat j, sim i j))).length) ((-1 : Int), 0)) = [] := by
    apply List.filter_eq_nil_iff.mpr
    intro a ha
    have := (List.mem_replicate.mp ha).2
    subst this
    simp
  have hfsplit : (faissSearchRow sim ids.length (k + 1) i).filter
      (fun p => ¬(p.1 = (i : Int) ∨ p.1 < 0)) =
      (((rankedBySim sim ids.length i).take (k + 1)).map
        (fun j => (Int.ofNat j, sim i j))).filter
        (fun p => ¬(p.1 = (i : Int) ∨ p.1 < 0)) := by
    unfold faissSearchRow
    rw [List.filter_append, hpad, List.append_nil]
  have hfun : ∀ j : Nat, (fun p : Int × Int => decide ¬(p.1 = (i : Int) ∨ p.1 < 0))
      ((fun j => (Int.ofNat j, sim i j)) j) = decide (j ≠ i) := by
    intro j
    simp [Int.ofNat_inj]
  have hftop : (((rankedBySim sim ids.length i).take (k + 1)).map
      (fun j => (Int.ofNat j, sim i j))).filter
      (fun p => ¬(p.1 = (i : Int) ∨ p.1 < 0)) =
      (((rankedBySim sim ids.length i).take (k + 1)).filter (fun j => j ≠ i)).map
        (fun j => (Int.ofNat j, sim i j)) := by
    rw [List.filter_map]
    congr 1
    exact List.filter_congr (fun j _ => hfun j)
  have hmemT : ∀ j ∈ (rankedBySim sim ids.length i).take (k + 1), j < ids.length := by
    intro j hj
    have h1 : j ∈ rankedBySim sim ids.length i := (List.take_sublist _ _).subset hj
    have := hperm.subset h1
    simpa using this
  refine ⟨?_, ?_, ?_, ?_⟩
  · rw [List.length_map, hpick]
    exact List.length_take_le _ _
  · intro q hq
    obtain ⟨p, hp, rfl⟩ := List.mem_map.mp hq
    rw [hpick] at hp
    have hp2 := (List.take_sublist _ _).subset hp
    rw [hfsplit, hftop] at hp2
    obtain ⟨j, hj, rfl⟩ := List.mem_map.mp hp2
    have hjf := List.mem_filter.mp hj
    have hne : j ≠ i := by simpa using hjf.2
    simp only [Int.toNat_ofNat]
    exact getD_ne_of_nodup hnd (hmemT j hjf.1) hi hne
  · have h1 : List.Pairwise (fun a b => sim i b ≤ sim i a)
        ((rankedBySim sim ids.length i).take (k + 1)) :=
      (List.Pairwise.sublist (List.take_sublist _ _) hsorted).imp (fun h => simGe_ge h)
    have h2 : List.Pairwise (fun a b => sim i b ≤ sim i a)
        (((rankedBySim sim ids.length i).take (k + 1)).filter (fun j => j ≠ i)) :=
      List.Pairwise.sublist (List.filter_sublist _) h1
    have h3 : List.Pairwise (fun p q : Int × Int => q.2 ≤ p.2)
        ((((rankedBySim sim ids.length i).take (k + 1)).filter (fun j => j ≠ i)).map
          (fun j => (Int.ofNat j, sim i j))) := List.pairwise_map.mpr h2
    have h4 := List.Pairwise.sublist (List.take_sublist k _) h3
    rw [hpick, hfsplit, hftop]
    exact (List.pairwise_map.mpr (h4.imp (fun h => h))).chain'
  · intro hnk
    have htake : (rankedBySim sim ids.length i).take (k + 1) =
        rankedBySim sim ids.length i :=
      List.take_of_length_le (by omega)
    have hcomp :
        ((densePickGo (i : Int) k (faissSearchRow sim ids.length (k + 1) i) 0).map
          (fun p => (ids.getD p.1.toNat [], p.2))).map Prod.fst =
        ((rankedBySim sim ids.length i).filter (fun j => j ≠ i)).map
          (fun j => ids.getD j []) := by
      rw [hpick, hfsplit, hftop, htake]
      rw [List.map_map]
      rw [List.take_of_length_le]
      · rw [List.map_map]
        rfl
      · rw [List.length_map]
        exact le_trans (le_trans (List.length_filter_le _ _) (le_of_eq hlenR)) hnk
    rw [hcomp]
    exact (hperm.filter _).map _

/-- C5 counterexample: on the sparse fallback with `k = 0` and two chunks
with identical texts (all pairwise TF-IDF cosine distances 0, so, under the
modelled index-order tie breaking, chunk 1's single returned candidate is
chunk 0 rather than itself), the source's append-then-check loop emits one
neighbor, so the neighbor list has length `1 > k`. -/
theorem C5_counterexample :
    build_neighbors_sparse [['a'], ['b']] (fun _ _ => 0) 0 =
      [(['a'], []), (['b'], [(['a'], 1)])] ∧
    ¬(((build_neighbors_sparse [['a'], ['b']] (fun _ _ => 0) 0).getD 1
        ([], [])).2.length ≤ 0) :=
  ⟨by decide, by decide⟩

/-- C5 (amended): for every `k ≥ 1` and corpus with distinct ids, on both
the dense (FAISS) path and the sparse TF-IDF fallback, every chunk's
neighbor entry carries its own id and a list of `(neighbor_id, score)`
pairs in non-increasing score order, of length at most `k`, never
containing the chunk's own id; and when the corpus has fewer than `k + 1`
chunks it is exactly the ids of all other chunks, with no padding.  (For
`k = 0` the bound can fail — see the counterexample.) -/
theorem C5_neighbor_entries (ids : List (List Char)) (dist sim : Nat → Nat → Int)
    (k : Nat) (hk : 1 ≤ k) (hnd : ids.Nodup) :
    (∀ i, i < ids.length →
      ∃ row, (build_neighbors_sparse ids dist k)[i]? = some (ids.getD i [], row) ∧
        NeighborRowOK ids k i row) ∧
    (∀ i, i < ids.length →
      ∃ row, (build_neighbors_dense ids sim k)[i]? = some (ids.getD i [], row) ∧
        NeighborRowOK ids k i row) := by
  constructor
  · intro i hi
    refine ⟨_, ?_, sparse_row_ok ids dist k i hk hnd hi⟩
    unfold build_neighbors_sparse
    rw [List.getElem?_map, List.getElem?_range hi]
    rfl
  · intro i hi
    refine ⟨_, ?_, dense_row_ok ids sim k i hk hnd hi⟩
    unfold build_neighbors_dense
    rw [List.getElem?_map, List.getElem?_range hi]
    rfl

/-- C5 witness: the amended statement at a concrete two-chunk corpus with
`k = 1`. -/
theorem C5_witness :
    ((1 : Nat) ≤ 1 ∧ ([['a'], ['b']] : List (List Char)).Nodup) ∧
    ((∀ i, i < ([['a'], ['b']] : List (List Char)).length →
      ∃ row, (build_neighbors_sparse [['a'], ['b']] (fun _ _ => 0) 1)[i]? =
          some (([['a'], ['b']] : List (List Char)).getD i [], row) ∧
        NeighborRowOK [['a'], ['b']] 1 i row) ∧
     (∀ i, i < ([['a'], ['b']] : List (List Char)).length →
      ∃ row, (build_neighbors_dense [['a'], ['b']] (fun _ _ => 0) 1)[i]? =
          some (([['a'], ['b']] : List (List Char)).getD i [], row) ∧
        NeighborRowOK [['a'], ['b']] 1 i row)) :=
  ⟨⟨by decide, by decide⟩,
    C5_neighbor_entries [['a'], ['b']] (fun _ _ => 0) (fun _ _ => 0) 1
      (by decide) (by decide)⟩

end BuildIndex
